import Mathlib

/-!
# Verification of the cryptoview market-data core

A shallow embedding, in Lean 4, of the core of the `cryptoview` repository:

* `src/price.rs`   — the fixed-point `Price` scalar and its `Display` impl;
* `src/book.rs`    — the Level-3 order book (`Order`, `PriceLevel`, `Book`);
* `src/bin/check_sequence.rs` — the per-product sequence checker and the
  cross-file join;
* `src/historical.rs` — the best-snapshot-per-product locator.

Rust `i64` values are modelled as `Int` (none of the verified properties
depend on wrap-around), `u64` sequence numbers as `Nat`.  Rust `assert!`
and `expect` failures (process aborts) are modelled by `Option`: a handler
returns `none` exactly when the Rust code would panic.  The shared
`Rc<RefCell<Order>>` records of `book.rs` are modelled by an arena:
`Book.arena` is the list of all order records ever created, and both the
id-map and the price-level queues hold arena indices, so that a mutation
through the id-map is visible from the queue, exactly as with `Rc`.
-/

namespace Cryptoview

/-! ## Association lists

`BTreeMap` / `HashMap` are modelled as association lists: `alookup` returns
the first binding of a key, `aupdate` replaces the first binding (or appends
a new one), mirroring map reads and writes.  Iteration order of a `BTreeMap`
is its key order; none of the verified claims depends on it except the
cross-file join, where only the set of reports matters.
-/

def alookup {α β : Type} [DecidableEq α] : List (α × β) → α → Option β
  | [], _ => none
  | (k, v) :: rest, a => if k = a then some v else alookup rest a

def aupdate {α β : Type} [DecidableEq α] : List (α × β) → α → β → List (α × β)
  | [], a, b => [(a, b)]
  | (k, v) :: rest, a, b =>
      if k = a then (k, b) :: rest else (k, v) :: aupdate rest a b

theorem alookup_aupdate_self {α β : Type} [DecidableEq α]
    (l : List (α × β)) (a : α) (b : β) : alookup (aupdate l a b) a = some b := by
  induction l with
  | nil => simp [alookup, aupdate]
  | cons hd tl ih =>
      obtain ⟨k, v⟩ := hd
      by_cases h : k = a <;> simp [alookup, aupdate, h, ih]

theorem alookup_aupdate_ne {α β : Type} [DecidableEq α]
    (l : List (α × β)) (a a' : α) (b : β) (h : a' ≠ a) :
    alookup (aupdate l a b) a' = alookup l a' := by
  induction l with
  | nil => simp [alookup, aupdate, Ne.symm h]
  | cons hd tl ih =>
      obtain ⟨k, v⟩ := hd
      by_cases hk : k = a
      · subst hk
        simp [alookup, aupdate, Ne.symm h]
      · simp only [aupdate, if_neg hk, alookup]
        by_cases hk' : k = a' <;> simp [hk', ih]

theorem aupdate_eq_of_alookup {α β : Type} [DecidableEq α]
    (l : List (α × β)) (a : α) (b : β) (h : alookup l a = some b) :
    aupdate l a b = l := by
  induction l with
  | nil => simp [alookup] at h
  | cons hd tl ih =>
      obtain ⟨k, v⟩ := hd
      by_cases hk : k = a
      · subst hk
        simp [alookup] at h
        simp [aupdate, h]
      · simp [alookup, hk] at h
        simp [aupdate, hk, ih h]

theorem mem_aupdate {α β : Type} [DecidableEq α]
    {l : List (α × β)} {a : α} {b : β} {x : α × β}
    (h : x ∈ aupdate l a b) : x = (a, b) ∨ x ∈ l := by
  induction l with
  | nil => simpa [aupdate] using h
  | cons hd tl ih =>
      obtain ⟨k, v⟩ := hd
      by_cases hk : k = a
      · subst hk
        rcases (by simpa [aupdate] using h : x = (k, b) ∨ x ∈ tl) with h' | h'
        · exact Or.inl (by simpa using h')
        · exact Or.inr (List.mem_cons_of_mem _ h')
      · rcases (by simpa [aupdate, hk] using h : x = (k, v) ∨ x ∈ aupdate tl a b) with h' | h'
        · exact Or.inr (by simp [h'])
        · rcases ih h' with h'' | h''
          · exact Or.inl h''
          · exact Or.inr (List.mem_cons_of_mem _ h'')

theorem alookup_mem {α β : Type} [DecidableEq α]
    {l : List (α × β)} {a : α} {b : β} (h : alookup l a = some b) : (a, b) ∈ l := by
  induction l with
  | nil => simp [alookup] at h
  | cons hd tl ih =>
      obtain ⟨k, v⟩ := hd
      by_cases hk : k = a
      · subst hk
        simp [alookup] at h
        simp [h]
      · simp [alookup, hk] at h
        exact List.mem_cons_of_mem _ (ih h)

/-! ## Price (`src/price.rs`)

```rust
const WHOLE: i64 = 100000000;
const CENT: i64 = WHOLE / 100;
pub struct Price { val: i64 }
```
-/

def WHOLE : Nat := 100000000

def CENT : Nat := WHOLE / 100

structure Price where
  val : Int
deriving DecidableEq, Repr

def Price.zero : Price := ⟨0⟩

instance : Add Price := ⟨fun a b => ⟨a.val + b.val⟩⟩
instance : Sub Price := ⟨fun a b => ⟨a.val - b.val⟩⟩
instance : LE Price := ⟨fun a b => a.val ≤ b.val⟩
instance : LT Price := ⟨fun a b => a.val < b.val⟩

instance (a b : Price) : Decidable (a ≤ b) :=
  inferInstanceAs (Decidable (a.val ≤ b.val))

instance (a b : Price) : Decidable (a < b) :=
  inferInstanceAs (Decidable (a.val < b.val))

@[simp] theorem Price.add_val (a b : Price) : (a + b).val = a.val + b.val := rfl
@[simp] theorem Price.sub_val (a b : Price) : (a - b).val = a.val - b.val := rfl
@[simp] theorem Price.zero_val : Price.zero.val = 0 := rfl
@[simp] theorem Price.le_def (a b : Price) : (a ≤ b) = (a.val ≤ b.val) := rfl

theorem Price.ext_val {a b : Price} (h : a.val = b.val) : a = b := by
  cases a; cases b; simpa using h

/-- `impl Mul<i64> for Price`: `val: rhs * self.val`. -/
def Price.mul (p : Price) (rhs : Int) : Price := ⟨rhs * p.val⟩

/-- `impl Div<i64> for Price`: `val: self.val / rhs` (Rust `i64` division
truncates toward zero, which is `Int.tdiv`). -/
def Price.div (p : Price) (rhs : Int) : Price := ⟨Int.tdiv p.val rhs⟩

/-- `impl DivAssign<i64> for Price`: the body is `self.val *= rhs`. -/
def Price.div_assign (p : Price) (rhs : Int) : Price := ⟨p.val * rhs⟩

/-! ### Decimal rendering

Rust's `{}` formatting of a non-negative integer prints its decimal digits.
`digitsLE n` is the little-endian digit-character list of `n` (empty for 0),
written with explicit fuel so that concrete values reduce inside `decide`;
`natStr` is the printed form.
-/

def digitsLEAux : Nat → Nat → List Char
  | 0, _ => []
  | fuel + 1, n =>
      if n = 0 then [] else Nat.digitChar (n % 10) :: digitsLEAux fuel (n / 10)

def digitsLE (n : Nat) : List Char := digitsLEAux n n

def natStr (n : Nat) : String :=
  if n = 0 then "0" else ⟨(digitsLE n).reverse⟩

/-- Rust `{:0w$}` zero-padding: left-pad with `'0'` up to width `w`. -/
def padZeros (w : Nat) (s : String) : String :=
  ⟨List.replicate (w - s.length) '0' ++ s.data⟩

theorem digitsLEAux_fuel (f1 : Nat) : ∀ (f2 n : Nat), n ≤ f1 → n ≤ f2 →
    digitsLEAux f1 n = digitsLEAux f2 n := by
  induction f1 with
  | zero =>
      intro f2 n h1 _
      interval_cases n
      cases f2 <;> simp [digitsLEAux]
  | succ f ih =>
      intro f2 n h1 h2
      by_cases hn : n = 0
      · subst hn; cases f2 <;> simp [digitsLEAux]
      · obtain ⟨f2', rfl⟩ : ∃ m, f2 = m + 1 := by
          cases f2 with
          | zero => omega
          | succ m => exact ⟨m, rfl⟩
        simp only [digitsLEAux, if_neg hn]
        have hlt : n / 10 < n := Nat.div_lt_self (Nat.pos_of_ne_zero hn) (by norm_num)
        exact congrArg _ (ih f2' (n / 10) (by omega) (by omega))

theorem digitsLE_succ {n : Nat} (hn : n ≠ 0) :
    digitsLE n = Nat.digitChar (n % 10) :: digitsLE (n / 10) := by
  obtain ⟨m, rfl⟩ : ∃ m, n = m + 1 := by
    cases n with
    | zero => omega
    | succ m => exact ⟨m, rfl⟩
  show digitsLEAux (m + 1) (m + 1) = _
  simp only [digitsLEAux, if_neg hn]
  have hlt : (m + 1) / 10 < m + 1 := Nat.div_lt_self (by omega) (by norm_num)
  exact congrArg _ (digitsLEAux_fuel m _ _ (by omega) (by omega))

theorem digitsLE_mul_pow (k : Nat) : ∀ g : Nat, g ≠ 0 →
    digitsLE (g * 10 ^ k) = List.replicate k '0' ++ digitsLE g := by
  induction k with
  | zero => intro g _; simp
  | succ k ih =>
      intro g hg
      have h10 : g * 10 ^ (k + 1) = g * 10 * 10 ^ k := by ring
      have hg10 : g * 10 ≠ 0 := by positivity
      rw [h10, ih (g * 10) hg10, digitsLE_succ hg10]
      have hmod : g * 10 % 10 = 0 := Nat.mul_mod_left g 10
      have hdiv : g * 10 / 10 = g := by omega
      rw [hmod, hdiv]
      have hch : Nat.digitChar 0 = '0' := rfl
      rw [hch, List.replicate_succ']
      simp

theorem digitsLE_length_eq (k : Nat) (g : Nat) (hg : g ≠ 0) :
    (digitsLE (g * 10 ^ k)).length = k + (digitsLE g).length := by
  rw [digitsLE_mul_pow k g hg]; simp

/-- The `while` loop of `impl Display for Price`:
`while fractional != 0 && fractional % 10 == 0 { fractional /= 10; min_width -= 1; }`,
with explicit fuel (the loop variable strictly decreases). -/
def trimLoopAux : Nat → Nat → Nat → Nat × Nat
  | 0, f, w => (f, w)
  | fuel + 1, f, w =>
      if f ≠ 0 ∧ f % 10 = 0 then trimLoopAux fuel (f / 10) (w - 1) else (f, w)

def trimLoop (f w : Nat) : Nat × Nat := trimLoopAux f f w

theorem trimLoopAux_fuel (f1 : Nat) : ∀ (f2 f w : Nat), f ≤ f1 → f ≤ f2 →
    trimLoopAux f1 f w = trimLoopAux f2 f w := by
  induction f1 with
  | zero =>
      intro f2 f w h1 _
      interval_cases f
      cases f2 <;> simp [trimLoopAux]
  | succ n ih =>
      intro f2 f w h1 h2
      by_cases hc : f ≠ 0 ∧ f % 10 = 0
      · obtain ⟨f2', rfl⟩ : ∃ m, f2 = m + 1 := by
          cases f2 with
          | zero => omega
          | succ m => exact ⟨m, rfl⟩
        simp only [trimLoopAux, if_pos hc]
        have hlt : f / 10 < f := Nat.div_lt_self (Nat.pos_of_ne_zero hc.1) (by norm_num)
        exact ih f2' (f / 10) (w - 1) (by omega) (by omega)
      · cases f2 <;> simp [trimLoopAux, if_neg hc]

theorem trimLoop_step {f : Nat} (w : Nat) (hf : f ≠ 0) (hm : f % 10 = 0) :
    trimLoop f w = trimLoop (f / 10) (w - 1) := by
  obtain ⟨m, rfl⟩ : ∃ m, f = m + 1 := by
    cases f with
    | zero => omega
    | succ m => exact ⟨m, rfl⟩
  show trimLoopAux (m + 1) (m + 1) w = _
  simp only [trimLoopAux, if_pos (And.intro hf hm)]
  have hlt : (m + 1) / 10 < m + 1 := Nat.div_lt_self (by omega) (by norm_num)
  rw [show trimLoop ((m + 1) / 10) (w - 1)
      = trimLoopAux ((m + 1) / 10) ((m + 1) / 10) (w - 1) from rfl]
  exact trimLoopAux_fuel m ((m + 1) / 10) ((m + 1) / 10) (w - 1) (by omega) le_rfl

theorem trimLoop_stop {f : Nat} (w : Nat) (h : ¬(f ≠ 0 ∧ f % 10 = 0)) :
    trimLoop f w = (f, w) := by
  cases f with
  | zero => rfl
  | succ m =>
      show trimLoopAux (m + 1) (m + 1) w = _
      simp only [trimLoopAux, if_neg h]

theorem trimLoop_spec (f : Nat) (hf : f ≠ 0) : ∀ w : Nat,
    ∃ k g, f = g * 10 ^ k ∧ g ≠ 0 ∧ g % 10 ≠ 0 ∧ trimLoop f w = (g, w - k) := by
  induction f using Nat.strong_induction_on with
  | _ f ih =>
      intro w
      by_cases hm : f % 10 = 0
      · have hlt : f / 10 < f := Nat.div_lt_self (Nat.pos_of_ne_zero hf) (by norm_num)
        have hf10 : f / 10 ≠ 0 := by
          intro h0
          have : f = 0 := by omega
          exact hf this
        obtain ⟨k, g, hfg, hg, hgm, htr⟩ := ih (f / 10) hlt hf10 (w - 1)
        refine ⟨k + 1, g, ?_, hg, hgm, ?_⟩
        · have : f = f / 10 * 10 := by omega
          rw [this, hfg]; ring
        · rw [trimLoop_step w hf hm, htr]
          congr 1
          omega
      · exact ⟨0, f, by simp, hf, hm, by rw [trimLoop_stop w (by tauto)]; simp⟩

/-- `impl Display for Price` (`src/price.rs`), translated line by line: the
absolute value is split into whole units, two cent digits, and up to six
further fractional digits whose trailing zeros are stripped by the
`while` loop. -/
def priceToString (val : Int) : String :=
  let abs := val.natAbs
  let whole := abs / WHOLE
  let part := abs % WHOLE
  let cents := part / CENT
  let sign := if val < 0 then "-" else ""
  let base := sign ++ natStr whole ++ "." ++ padZeros 2 (natStr cents)
  let fw := trimLoop (part % CENT) 6
  if fw.1 ≠ 0 then base ++ padZeros fw.2 (natStr fw.1) else base

/-- Strip all trailing `'0'` characters. -/
def dropTrailingZeros (s : String) : String :=
  ⟨(s.data.reverse.dropWhile (· == '0')).reverse⟩

/-- The display format as the specification words it: sign, whole part, a
decimal point, exactly two cent digits, then up to six additional fractional
digits with trailing zeros beyond the second digit trimmed. -/
def priceToStringSpec (val : Int) : String :=
  let abs := val.natAbs
  let whole := abs / WHOLE
  let part := abs % WHOLE
  let sign := if val < 0 then "-" else ""
  sign ++ natStr whole ++ "." ++ padZeros 2 (natStr (part / CENT))
    ++ dropTrailingZeros (padZeros 6 (natStr (part % CENT)))

@[simp] theorem padZeros_data (w : Nat) (s : String) :
    (padZeros w s).data = List.replicate (w - s.data.length) '0' ++ s.data := rfl

@[simp] theorem dropTrailingZeros_data (s : String) :
    (dropTrailingZeros s).data = (s.data.reverse.dropWhile (· == '0')).reverse := rfl

theorem natStr_data {n : Nat} (hn : n ≠ 0) : (natStr n).data = (digitsLE n).reverse := by
  simp [natStr, hn]

theorem dropWhile_replicate_append (p : Char → Bool) (a : Char) (h : p a = true) :
    ∀ (n : Nat) (l : List Char),
      List.dropWhile p (List.replicate n a ++ l) = List.dropWhile p l := by
  intro n
  induction n with
  | zero => intro l; simp
  | succ m ih => intro l; simp [List.replicate_succ, List.dropWhile_cons, h, ih]

theorem digitChar_eq_zero_iff {m : Nat} (hm : m < 10) : Nat.digitChar m = '0' ↔ m = 0 := by
  interval_cases m <;> simp <;> decide

/-- The fractional suffix printed by the code equals the spec's description:
pad the remaining six digits and trim the trailing zeros. -/
theorem frac_suffix (f : Nat) :
    (if (trimLoop f 6).1 ≠ 0
      then (padZeros (trimLoop f 6).2 (natStr (trimLoop f 6).1)).data
      else []) =
    (dropTrailingZeros (padZeros 6 (natStr f))).data := by
  by_cases hf : f = 0
  · subst hf; decide
  · obtain ⟨k, g, hfg, hg, hgm, htr⟩ := trimLoop_spec f hf 6
    rw [htr]
    simp only [hg, if_pos (by simpa using hg : g ≠ 0)]
    have hlenf : (digitsLE f).length = k + (digitsLE g).length := by
      rw [hfg]; exact digitsLE_length_eq k g hg
    have hmod10 : g % 10 < 10 := Nat.mod_lt _ (by norm_num)
    have hhead : ((Nat.digitChar (g % 10)) == '0') = false := by
      rw [beq_eq_false_iff_ne]
      intro hc
      exact hgm ((digitChar_eq_zero_iff hmod10).mp hc)
    have hdf : digitsLE f = List.replicate k '0' ++ digitsLE g := by
      rw [hfg]; exact digitsLE_mul_pow k g hg
    have hdrop : List.dropWhile (· == '0')
        (digitsLE f ++ List.replicate (6 - (digitsLE f).length) '0')
        = digitsLE g ++ List.replicate (6 - (digitsLE f).length) '0' := by
      rw [hdf, List.append_assoc, dropWhile_replicate_append (· == '0') '0' rfl k _,
        digitsLE_succ hg, List.cons_append, List.dropWhile_cons]
      simp [hhead]
    have hRHS : (dropTrailingZeros (padZeros 6 (natStr f))).data
        = List.replicate (6 - (digitsLE f).length) '0' ++ (digitsLE g).reverse := by
      simp only [dropTrailingZeros_data, padZeros_data, natStr_data hf,
        List.length_reverse]
      rw [List.reverse_append, List.reverse_reverse, List.reverse_replicate, hdrop,
        List.reverse_append, List.reverse_replicate]
    rw [hRHS, padZeros_data, natStr_data hg]
    simp only [List.length_reverse]
    congr 2
    omega

theorem data_append (s t : String) : (s ++ t).data = s.data ++ t.data := rfl

theorem priceToString_eq_spec (val : Int) : priceToString val = priceToStringSpec val := by
  apply String.ext
  show (if (trimLoop (val.natAbs % WHOLE % CENT) 6).1 ≠ 0
        then ((if val < 0 then "-" else "") ++ natStr (val.natAbs / WHOLE) ++ "."
              ++ padZeros 2 (natStr (val.natAbs % WHOLE / CENT)))
             ++ padZeros (trimLoop (val.natAbs % WHOLE % CENT) 6).2
                  (natStr (trimLoop (val.natAbs % WHOLE % CENT) 6).1)
        else ((if val < 0 then "-" else "") ++ natStr (val.natAbs / WHOLE) ++ "."
              ++ padZeros 2 (natStr (val.natAbs % WHOLE / CENT)))).data
      = (((if val < 0 then "-" else "") ++ natStr (val.natAbs / WHOLE) ++ "."
          ++ padZeros 2 (natStr (val.natAbs % WHOLE / CENT)))
         ++ dropTrailingZeros (padZeros 6 (natStr (val.natAbs % WHOLE % CENT)))).data
  have h := frac_suffix (val.natAbs % WHOLE % CENT)
  by_cases h1 : (trimLoop (val.natAbs % WHOLE % CENT) 6).1 = 0
  · rw [if_neg (by simpa using h1)]
    rw [if_neg (by simpa using h1)] at h
    simp only [data_append, ← h, List.append_nil]
  · rw [if_pos h1]
    rw [if_pos h1] at h
    simp only [data_append, h]

/-- C9: for every `Price` value the displayed string is the minus sign when
negative, the whole part, a decimal point, exactly two cent digits, then up to
six further fractional digits with trailing zeros beyond the second digit
trimmed (formalised as `priceToStringSpec`, the spec's wording); and the
internal fixed-point values corresponding to `1024.65`, `1024.0`, `0.10`,
`-15024.015` and `1024.010001` (the `f64` conversions are exact at these
inputs, e.g. `1024.65 · 10⁸ = 102465000000`) display as `"1024.65"`,
`"1024.00"`, `"0.10"`, `"-15024.015"` and `"1024.010001"`. -/
theorem display_formats_prices :
    (∀ val : Int, priceToString val = priceToStringSpec val) ∧
    priceToString 102465000000 = "1024.65" ∧
    priceToString 102400000000 = "1024.00" ∧
    priceToString 10000000 = "0.10" ∧
    priceToString (-1502401500000) = "-15024.015" ∧
    priceToString 102401000100 = "1024.010001" :=
  ⟨priceToString_eq_spec, by decide, by decide, by decide, by decide, by decide⟩

/-- C10: `p /= n` multiplies the internal integer by `n` (the `DivAssign`
body is `self.val *= rhs`), so it coincides with `p * n`; it agrees with the
truncating division `p / n` in degenerate cases such as `n = 1` and `p = 0`,
but differs in general (witnessed at `p = Price(4)`, `n = 2`). -/
theorem div_assign_multiplies :
    (∀ (p : Price) (n : Int), Price.div_assign p n = Price.mul p n) ∧
    (∀ p : Price, Price.div_assign p 1 = Price.div p 1) ∧
    (∀ n : Int, Price.div_assign Price.zero n = Price.div Price.zero n) ∧
    Price.div_assign ⟨4⟩ 2 ≠ Price.div ⟨4⟩ 2 := by
  refine ⟨fun p n => ?_, fun p => ?_, fun n => ?_, by decide⟩
  · exact Price.ext_val (by simp [Price.div_assign, Price.mul, Int.mul_comm])
  · exact Price.ext_val (by simp [Price.div_assign, Price.div])
  · exact Price.ext_val (by simp [Price.div_assign, Price.div])

/-! ## SequenceChecker (`src/bin/check_sequence.rs`)

`BTreeMap<String, SeqRange>` is the association list `products`; `u64`
sequence numbers are `Nat`.
-/

structure Message where
  sequence : Nat
  product_id : String
deriving DecidableEq

structure SeqRange where
  begin : Nat
  end_ : Nat
deriving DecidableEq, Repr

inductive Event where
  | Ok : Event
  | NewProduct : String → Event
  | Skipped : String → Nat → Nat → Event
deriving DecidableEq, Repr

structure SeqChecker where
  products : List (String × SeqRange)
deriving DecidableEq

/-- `SeqChecker::update`: on a known product, always advance `end` to the
message's sequence, and emit `Skipped` unless `last_end + 1 == sequence`;
on an unseen product record `begin = end = sequence` and emit `NewProduct`. -/
def SeqChecker.update (c : SeqChecker) (m : Message) : SeqChecker × Event :=
  match alookup c.products m.product_id with
  | some entry =>
      let last_sequence := entry.end_
      let products' := aupdate c.products m.product_id { entry with end_ := m.sequence }
      if last_sequence + 1 ≠ m.sequence then
        (⟨products'⟩, Event.Skipped m.product_id last_sequence m.sequence)
      else
        (⟨products'⟩, Event.Ok)
  | none =>
      (⟨aupdate c.products m.product_id ⟨m.sequence, m.sequence⟩⟩,
       Event.NewProduct m.product_id)

/-- C7: `SeqChecker::update` (i) on an unseen product records
`begin = end = sequence` and emits `NewProduct`; (ii) on a seen product always
advances `end` to `sequence`, keeps `begin`, and emits `Ok` exactly when
`last_end + 1 = sequence` and `Skipped(product, last_end, sequence)` otherwise;
(iii) the `begin` of every recorded product survives every update unchanged. -/
theorem seq_checker_update_cases (c : SeqChecker) (m : Message) :
    (alookup c.products m.product_id = none →
      (c.update m).2 = Event.NewProduct m.product_id ∧
      alookup (c.update m).1.products m.product_id = some ⟨m.sequence, m.sequence⟩) ∧
    (∀ r, alookup c.products m.product_id = some r →
      alookup (c.update m).1.products m.product_id = some ⟨r.begin, m.sequence⟩ ∧
      (c.update m).2 = (if r.end_ + 1 = m.sequence then Event.Ok
                        else Event.Skipped m.product_id r.end_ m.sequence)) ∧
    (∀ p r, alookup c.products p = some r →
      ∃ r', alookup (c.update m).1.products p = some r' ∧ r'.begin = r.begin) := by
  refine ⟨fun hnone => ?_, fun r hr => ?_, fun p r hp => ?_⟩
  · simp [SeqChecker.update, hnone, alookup_aupdate_self]
  · by_cases hb : r.end_ + 1 = m.sequence <;>
      simp [SeqChecker.update, hr, hb, alookup_aupdate_self]
  · by_cases hpm : p = m.product_id
    · subst hpm
      cases hcm : alookup c.products m.product_id with
      | none => rw [hcm] at hp; cases hp
      | some entry =>
          rw [hcm] at hp
          cases hp
          by_cases hb : r.end_ + 1 = m.sequence <;>
            exact ⟨⟨r.begin, m.sequence⟩,
              by simp [SeqChecker.update, hcm, hb, alookup_aupdate_self], rfl⟩
    · cases hcm : alookup c.products m.product_id with
      | none =>
          exact ⟨r, by simp [SeqChecker.update, hcm, alookup_aupdate_ne _ _ _ _ hpm, hp], rfl⟩
      | some entry =>
          by_cases hb : entry.end_ + 1 = m.sequence <;>
            exact ⟨r, by simp [SeqChecker.update, hcm, hb,
              alookup_aupdate_ne _ _ _ _ hpm, hp], rfl⟩

/-! ### The cross-file join (`main` of `check_sequence.rs`)

```rust
for i in 1..ranges.len() {
    for product in ranges[i-1].keys() {
        if ranges[i-1][product].end + 1 != ranges[i][product].begin { ... }
    }
}
```

`ranges[i][product]` is `BTreeMap`'s `Index`, which panics when the key is
absent; the panic is modelled by `none`.  `joinPair` is the inner loop for one
adjacent pair of files, returning the list of reported gaps
`(product, end_seq, begin_seq)`.
-/

def joinPair : List (String × SeqRange) → List (String × SeqRange) →
    Option (List (String × Nat × Nat))
  | [], _ => some []
  | (p, rg) :: rest, r2 =>
      match alookup r2 p with
      | none => none
      | some rg2 => do
          let more ← joinPair rest r2
          pure ((if rg.end_ + 1 ≠ rg2.begin then [(p, rg.end_, rg2.begin)] else []) ++ more)

def crossFileJoinAux : List (String × SeqRange) → List (List (String × SeqRange)) →
    Option (List (String × Nat × Nat))
  | _, [] => some []
  | prev, next :: rest => do
      let gaps ← joinPair prev next
      let more ← crossFileJoinAux next rest
      pure (gaps ++ more)

/-- The outer loop of `main`: the per-file range maps, in lexicographically
sorted file order, are joined pairwise on adjacent files. -/
def crossFileJoin : List (List (String × SeqRange)) → Option (List (String × Nat × Nat))
  | [] => some []
  | r :: rest => crossFileJoinAux r rest

theorem joinPair_none_iff : ∀ (prev next : List (String × SeqRange)),
    joinPair prev next = none ↔ ∃ p rg, (p, rg) ∈ prev ∧ alookup next p = none := by
  intro prev next
  induction prev with
  | nil => simp [joinPair]
  | cons hd rest ih =>
      obtain ⟨p, rg⟩ := hd
      cases hlk : alookup next p with
      | none =>
          simp only [joinPair, hlk]
          exact ⟨fun _ => ⟨p, rg, List.mem_cons_self _ _, hlk⟩, fun _ => trivial⟩
      | some rg2 =>
          cases hrest : joinPair rest next with
          | none =>
              simp only [joinPair, hlk, hrest]
              constructor
              · intro _
                obtain ⟨q, qr, hm, hq⟩ := (ih).mp hrest
                exact ⟨q, qr, List.mem_cons_of_mem _ hm, hq⟩
              · intro _; trivial
          | some more =>
              simp only [joinPair, hlk, hrest]
              constructor
              · intro h; cases h
              · rintro ⟨q, qr, hm, hq⟩
                rcases List.mem_cons.mp hm with h | h
                · cases h; rw [hlk] at hq; cases hq
                · exact absurd hrest (by
                    rw [(ih).mpr ⟨q, qr, h, hq⟩]; intro h'; cases h')

theorem joinPair_some_mem : ∀ (prev next : List (String × SeqRange)) gaps,
    joinPair prev next = some gaps →
    ∀ x : String × Nat × Nat, x ∈ gaps ↔
      ∃ rg rg2, (x.1, rg) ∈ prev ∧ alookup next x.1 = some rg2 ∧
        rg.end_ = x.2.1 ∧ rg2.begin = x.2.2 ∧ x.2.1 + 1 ≠ x.2.2 := by
  intro prev next
  induction prev with
  | nil =>
      intro gaps hg x
      simp [joinPair] at hg
      subst hg
      simp
  | cons hd rest ih =>
      obtain ⟨p, rg⟩ := hd
      intro gaps hg x
      obtain ⟨x1, x2, x3⟩ := x
      cases hlk : alookup next p with
      | none => rw [joinPair, hlk] at hg; cases hg
      | some rg2 =>
          rw [joinPair, hlk] at hg
          cases hrest : joinPair rest next with
          | none => rw [hrest] at hg; cases hg
          | some more =>
              rw [hrest] at hg
              simp only [Option.pure_def, Option.bind_eq_bind, Option.some_bind,
                Option.some.injEq] at hg
              subst hg
              rw [List.mem_append]
              constructor
              · intro h
                rcases h with h | h
                · by_cases hc : rg.end_ + 1 ≠ rg2.begin
                  · rw [if_pos hc] at h
                    simp only [List.mem_singleton, Prod.mk.injEq] at h
                    obtain ⟨h1, h2, h3⟩ := h
                    subst h1; subst h2; subst h3
                    exact ⟨rg, rg2, List.mem_cons_self _ _, hlk, rfl, rfl, hc⟩
                  · rw [if_neg hc] at h; cases h
                · obtain ⟨rg', rg2', hm, hlk', he, hb, hne⟩ :=
                    (ih more hrest (x1, x2, x3)).mp h
                  exact ⟨rg', rg2', List.mem_cons_of_mem _ hm, hlk', he, hb, hne⟩
              · rintro ⟨rg', rg2', hm, hlk', he, hb, hne⟩
                simp only at hm hlk' he hb hne
                rcases List.mem_cons.mp hm with h | h
                · left
                  have h1 : x1 = p := congrArg Prod.fst h
                  have h2 : rg' = rg := congrArg Prod.snd h
                  subst h2
                  rw [h1, hlk] at hlk'
                  cases hlk'
                  rw [if_pos (by rw [he, hb]; exact hne)]
                  subst h1
                  subst he
                  subst hb
                  simp
                · right
                  exact (ih more hrest (x1, x2, x3)).mpr ⟨rg', rg2', h, hlk', he, hb, hne⟩

theorem crossFileJoinAux_none_iff : ∀ (rest : List (List (String × SeqRange))) prev,
    crossFileJoinAux prev rest = none ↔
      ∃ pr ∈ (prev :: rest).zip rest, joinPair pr.1 pr.2 = none := by
  intro rest
  induction rest with
  | nil => intro prev; simp [crossFileJoinAux]
  | cons next rest' ih =>
      intro prev
      cases hjp : joinPair prev next with
      | none =>
          simp only [crossFileJoinAux, hjp]
          exact ⟨fun _ => ⟨(prev, next), by simp, hjp⟩, fun _ => rfl⟩
      | some gaps =>
          cases haux : crossFileJoinAux next rest' with
          | none =>
              simp only [crossFileJoinAux, hjp, haux]
              constructor
              · intro _
                obtain ⟨pr, hm, hpr⟩ := (ih next).mp haux
                exact ⟨pr, by simpa [List.zip] using Or.inr (by simpa [List.zip] using hm), hpr⟩
              · intro _; trivial
          | some more =>
              simp only [crossFileJoinAux, hjp, haux]
              constructor
              · intro h; cases h
              · rintro ⟨pr, hm, hpr⟩
                rcases List.mem_cons.mp (by simpa [List.zip] using hm) with h | h
                · subst h; rw [hjp] at hpr; cases hpr
                · exact absurd haux (by
                    rw [(ih next).mpr ⟨pr, by simpa [List.zip] using h, hpr⟩]
                    intro h'; cases h')

theorem crossFileJoinAux_some_mem : ∀ (rest : List (List (String × SeqRange))) prev G,
    crossFileJoinAux prev rest = some G →
    ∀ x, x ∈ G ↔ ∃ pr ∈ (prev :: rest).zip rest,
      ∃ gs, joinPair pr.1 pr.2 = some gs ∧ x ∈ gs := by
  intro rest
  induction rest with
  | nil =>
      intro prev G hG x
      simp [crossFileJoinAux] at hG
      subst hG
      simp
  | cons next rest' ih =>
      intro prev G hG x
      cases hjp : joinPair prev next with
      | none => rw [crossFileJoinAux, hjp] at hG; cases hG
      | some gaps =>
          rw [crossFileJoinAux, hjp] at hG
          cases haux : crossFileJoinAux next rest' with
          | none => rw [haux] at hG; cases hG
          | some more =>
              rw [haux] at hG
              simp only [Option.pure_def, Option.bind_eq_bind, Option.some_bind,
                Option.some.injEq] at hG
              subst hG
              rw [List.mem_append]
              constructor
              · intro h
                rcases h with h | h
                · exact ⟨(prev, next), by simp, gaps, hjp, h⟩
                · obtain ⟨pr, hm, gs, hgs, hx⟩ := (ih next more haux x).mp h
                  exact ⟨pr, by simpa [List.zip] using Or.inr (by simpa [List.zip] using hm),
                    gs, hgs, hx⟩
              · rintro ⟨pr, hm, gs, hgs, hx⟩
                rcases List.mem_cons.mp (by simpa [List.zip] using hm) with h | h
                · subst h
                  rw [hjp] at hgs
                  cases hgs
                  exact Or.inl hx
                · exact Or.inr ((ih next more haux x).mpr
                    ⟨pr, by simpa [List.zip] using h, gs, hgs, hx⟩)

/-- C1, counterexample: with two sorted files where file 1 holds only product
`"A"` (sequences 1–5) and file 2 holds only product `"B"`, the claim says the
join reports `A` as terminated and `B` as new and completes without failing;
the code instead evaluates `ranges[1]["A"]`, whose key is absent, and panics
(modelled as `none`). -/
theorem cross_file_join_panics_on_terminated_product :
    crossFileJoin [[("A", ⟨1, 5⟩)], [("B", ⟨6, 9⟩)]] = none := by decide

/-- C1 (amended): for every sorted file list, the join examines each adjacent
pair `i−1, i` and each product of file `i−1`: a cross-file gap
`(product, end, begin)` is reported exactly when the product also appears in
file `i` with `end + 1 ≠ begin`; but when some product of file `i−1` is absent
from file `i` the join panics instead of reporting it as terminated, and
products present only in file `i` are never examined nor reported (a gap's
product always comes from file `i−1`). -/
theorem cross_file_join_gap_reports :
    (∀ prev next : List (String × SeqRange),
      joinPair prev next = none ↔ ∃ p rg, (p, rg) ∈ prev ∧ alookup next p = none) ∧
    (∀ (prev next : List (String × SeqRange)) gaps, joinPair prev next = some gaps →
      ∀ x : String × Nat × Nat, x ∈ gaps ↔
        ∃ rg rg2, (x.1, rg) ∈ prev ∧ alookup next x.1 = some rg2 ∧
          rg.end_ = x.2.1 ∧ rg2.begin = x.2.2 ∧ x.2.1 + 1 ≠ x.2.2) ∧
    (∀ ranges : List (List (String × SeqRange)),
      crossFileJoin ranges = none ↔
        ∃ pr ∈ ranges.zip ranges.tail, joinPair pr.1 pr.2 = none) ∧
    (∀ (ranges : List (List (String × SeqRange))) G, crossFileJoin ranges = some G →
      ∀ x, x ∈ G ↔ ∃ pr ∈ ranges.zip ranges.tail,
        ∃ gs, joinPair pr.1 pr.2 = some gs ∧ x ∈ gs) := by
  refine ⟨joinPair_none_iff, joinPair_some_mem, fun ranges => ?_, fun ranges G hG x => ?_⟩
  · cases ranges with
    | nil => simp [crossFileJoin]
    | cons r rest => exact crossFileJoinAux_none_iff rest r
  · cases ranges with
    | nil =>
        simp [crossFileJoin] at hG
        subst hG
        simp
    | cons r rest => exact crossFileJoinAux_some_mem rest r G hG x

/-! ## ChunkLocator (`src/historical.rs`)

`get_best_snapshot_per_product` receives the glob results as a list of
`Except` values (`Err` entries are the per-entry glob errors, which the code
logs and skips).  The start time only enters the Rust function through the
derived glob pattern, i.e. through which paths appear in the result list, so
the embedding takes that list as input.  `path.file_name()` is the component
after the last `/`; `[..7]` is modelled by `strTake · 7` (the glob pattern
`???-???_…` guarantees at least seven characters, so the total `take` agrees
with the panicking byte slice on every reachable input). -/

def fileNameAux : List Char → List Char → List Char
  | [], acc => acc.reverse
  | c :: rest, acc => if c = '/' then fileNameAux rest [] else fileNameAux rest (c :: acc)

/-- `path.file_name()`: the component after the last `/` (structural, so that
concrete runs evaluate inside `decide`). -/
def fileName (path : String) : String := ⟨fileNameAux path.data []⟩

/-- The byte slice `[..7]`, modelled at character level (the snapshot file
names are ASCII, where bytes and characters coincide). -/
def strTake (s : String) (n : Nat) : String := ⟨s.data.take n⟩

/-- One iteration of the `for entry in G::glob(&pattern)` loop. -/
def snapshotStep (products : List (String × String)) (entry : Except String String) :
    List (String × String) :=
  match entry with
  | .ok path =>
      let product := strTake (fileName path) 7
      match alookup products product with
      | none => aupdate products product path
      | some cur =>
          if fileName path < fileName cur then aupdate products product path else products
  | .error _ => products

def get_best_snapshot_per_product (entries : List (Except String String)) :
    List (String × String) :=
  entries.foldl snapshotStep []

/-- The successfully globbed paths. -/
def okPaths (entries : List (Except String String)) : List String :=
  entries.filterMap (fun e => match e with | .ok p => some p | .error _ => none)

/-- The accumulator invariant of the snapshot fold: the map holds exactly the
seven-character prefixes of the paths seen so far, each bound to a seen path
of that prefix with a minimal file name. -/
def SnapInv (acc : List (String × String)) (oks : List String) : Prop :=
  (∀ p : String, (alookup acc p).isSome ↔ ∃ q ∈ oks, strTake (fileName q) 7 = p) ∧
  (∀ p q, alookup acc p = some q → q ∈ oks ∧ strTake (fileName q) 7 = p ∧
    ∀ r ∈ oks, strTake (fileName r) 7 = p → ¬ fileName r < fileName q)

theorem snapInv_nil : SnapInv [] [] := by
  constructor
  · intro p; simp [alookup]
  · intro p q h; simp [alookup] at h

theorem exists_pref_append {oks : List String} {path p : String}
    (hp : p ≠ strTake (fileName path) 7) :
    (∃ q ∈ oks ++ [path], strTake (fileName q) 7 = p) ↔
      ∃ q ∈ oks, strTake (fileName q) 7 = p := by
  constructor
  · rintro ⟨q, hq, hqp⟩
    rcases List.mem_append.mp hq with hh | hh
    · exact ⟨q, hh, hqp⟩
    · simp only [List.mem_singleton] at hh
      subst hh
      exact absurd hqp.symm hp
  · rintro ⟨q, hq, hqp⟩
    exact ⟨q, List.mem_append_left _ hq, hqp⟩

theorem min_append_of_ne {oks : List String} {path p q : String}
    (hp : p ≠ strTake (fileName path) 7)
    (hmin : ∀ r ∈ oks, strTake (fileName r) 7 = p → ¬ fileName r < fileName q) :
    ∀ r ∈ oks ++ [path], strTake (fileName r) 7 = p → ¬ fileName r < fileName q := by
  intro r hr hrp
  rcases List.mem_append.mp hr with hh | hh
  · exact hmin r hh hrp
  · simp only [List.mem_singleton] at hh
    subst hh
    exact absurd hrp.symm hp

theorem snapshotStep_ok_insert {acc : List (String × String)} {path : String}
    (h : alookup acc (strTake (fileName path) 7) = none) :
    snapshotStep acc (Except.ok path) = aupdate acc (strTake (fileName path) 7) path := by
  show (match alookup acc (strTake (fileName path) 7) with
        | none => aupdate acc (strTake (fileName path) 7) path
        | some cur => if fileName path < fileName cur
            then aupdate acc (strTake (fileName path) 7) path else acc) = _
  rw [h]

theorem snapshotStep_ok_smaller {acc : List (String × String)} {path cur : String}
    (h : alookup acc (strTake (fileName path) 7) = some cur)
    (hlt : fileName path < fileName cur) :
    snapshotStep acc (Except.ok path) = aupdate acc (strTake (fileName path) 7) path := by
  show (match alookup acc (strTake (fileName path) 7) with
        | none => aupdate acc (strTake (fileName path) 7) path
        | some cur => if fileName path < fileName cur
            then aupdate acc (strTake (fileName path) 7) path else acc) = _
  rw [h]
  show (if fileName path < fileName cur
      then aupdate acc (strTake (fileName path) 7) path else acc) = _
  rw [if_pos hlt]

theorem snapshotStep_ok_keep {acc : List (String × String)} {path cur : String}
    (h : alookup acc (strTake (fileName path) 7) = some cur)
    (hlt : ¬ fileName path < fileName cur) :
    snapshotStep acc (Except.ok path) = acc := by
  show (match alookup acc (strTake (fileName path) 7) with
        | none => aupdate acc (strTake (fileName path) 7) path
        | some cur => if fileName path < fileName cur
            then aupdate acc (strTake (fileName path) 7) path else acc) = _
  rw [h]
  show (if fileName path < fileName cur
      then aupdate acc (strTake (fileName path) 7) path else acc) = _
  rw [if_neg hlt]

theorem snapInv_insert {acc : List (String × String)} {oks : List String} {path : String}
    (h1 : ∀ p : String, (alookup acc p).isSome ↔ ∃ q ∈ oks, strTake (fileName q) 7 = p)
    (h2 : ∀ p q, alookup acc p = some q → q ∈ oks ∧ strTake (fileName q) 7 = p ∧
      ∀ r ∈ oks, strTake (fileName r) 7 = p → ¬ fileName r < fileName q)
    (hnew : ∀ r ∈ oks, strTake (fileName r) 7 = strTake (fileName path) 7 →
      ¬ fileName r < fileName path) :
    SnapInv (aupdate acc (strTake (fileName path) 7) path) (oks ++ [path]) := by
  constructor
  · intro p
    by_cases hp : p = strTake (fileName path) 7
    · subst hp
      rw [alookup_aupdate_self]
      exact ⟨fun _ => ⟨path, by simp, rfl⟩, fun _ => rfl⟩
    · rw [alookup_aupdate_ne _ _ _ _ hp, h1 p, ← exists_pref_append hp]
  · intro p q hq
    by_cases hp : p = strTake (fileName path) 7
    · subst hp
      rw [alookup_aupdate_self] at hq
      cases hq
      refine ⟨List.mem_append_right _ (by simp), rfl, ?_⟩
      intro r hr hrp
      rcases List.mem_append.mp hr with hh | hh
      · exact hnew r hh hrp
      · simp only [List.mem_singleton] at hh
        subst hh
        exact lt_irrefl _
    · rw [alookup_aupdate_ne _ _ _ _ hp] at hq
      obtain ⟨hmem, hpref, hmin⟩ := h2 p q hq
      exact ⟨List.mem_append_left _ hmem, hpref, min_append_of_ne hp hmin⟩

theorem snapInv_step {acc : List (String × String)} {oks : List String}
    (hinv : SnapInv acc oks) (e : Except String String) :
    SnapInv (snapshotStep acc e) (oks ++ okPaths [e]) := by
  obtain ⟨h1, h2⟩ := hinv
  cases e with
  | error msg => simpa [snapshotStep, okPaths] using ⟨h1, h2⟩
  | ok path =>
      have hok : okPaths [Except.ok (ε := String) path] = [path] := rfl
      rw [hok]
      cases hlk : alookup acc (strTake (fileName path) 7) with
      | none =>
          rw [snapshotStep_ok_insert hlk]
          refine snapInv_insert h1 h2 ?_
          intro r hr hrp
          exact absurd ((h1 _).mpr ⟨r, hr, hrp⟩) (by simp [hlk])
      | some cur =>
          obtain ⟨hcmem, hcpref, hcmin⟩ := h2 _ cur hlk
          by_cases hcmp : fileName path < fileName cur
          · rw [snapshotStep_ok_smaller hlk hcmp]
            refine snapInv_insert h1 h2 ?_
            intro r hr hrp hlt
            exact hcmin r hr hrp (lt_trans hlt hcmp)
          · rw [snapshotStep_ok_keep hlk hcmp]
            constructor
            · intro p
              by_cases hp : p = strTake (fileName path) 7
              · subst hp
                rw [hlk]
                exact ⟨fun _ => ⟨cur, List.mem_append_left _ hcmem, hcpref⟩, fun _ => rfl⟩
              · rw [h1 p, ← exists_pref_append hp]
            · intro p q hq
              by_cases hp : p = strTake (fileName path) 7
              · subst hp
                rw [hlk] at hq
                cases hq
                refine ⟨List.mem_append_left _ hcmem, hcpref, ?_⟩
                intro r hr hrp
                rcases List.mem_append.mp hr with hh | hh
                · exact hcmin r hh hrp
                · simp only [List.mem_singleton] at hh
                  subst hh
                  exact hcmp
              · obtain ⟨hmem, hpref, hmin⟩ := h2 p q hq
                exact ⟨List.mem_append_left _ hmem, hpref, min_append_of_ne hp hmin⟩

theorem okPaths_cons (e : Except String String) (es : List (Except String String)) :
    okPaths (e :: es) = okPaths [e] ++ okPaths es := by
  cases e <;> simp [okPaths, List.filterMap_cons]

theorem snapInv_fold : ∀ (entries : List (Except String String)) acc oks,
    SnapInv acc oks →
    SnapInv (entries.foldl snapshotStep acc) (oks ++ okPaths entries) := by
  intro entries
  induction entries with
  | nil =>
      intro acc oks h
      simpa [okPaths] using h
  | cons e es ih =>
      intro acc oks h
      rw [okPaths_cons, ← List.append_assoc, List.foldl_cons]
      exact ih (snapshotStep acc e) (oks ++ okPaths [e]) (snapInv_step h e)

theorem foldl_snapshotStep_no_ok : ∀ (entries : List (Except String String)) acc,
    okPaths entries = [] → entries.foldl snapshotStep acc = acc := by
  intro entries
  induction entries with
  | nil => intro acc _; rfl
  | cons e es ih =>
      intro acc h
      cases e with
      | ok path => simp [okPaths, List.filterMap_cons] at h
      | error msg =>
          rw [okPaths_cons] at h
          simp only [List.append_eq_nil] at h
          rw [List.foldl_cons]
          rw [show snapshotStep acc (Except.error msg) = acc from rfl]
          exact ih acc h.2

/-- C8: the snapshot locator maps each seven-character product prefix occurring
among the successfully globbed file names to a globbed path of that prefix
whose file name is minimal in the lexicographic order (and only such prefixes
are mapped); per-entry glob errors are skipped; and when nothing is globbed
successfully — in particular when no file matches the derived pattern — the
result is the empty map. -/
theorem snapshot_locator_best_per_product :
    (∀ entries : List (Except String String),
      okPaths entries = [] → get_best_snapshot_per_product entries = []) ∧
    (∀ (entries : List (Except String String)) (p : String),
      (alookup (get_best_snapshot_per_product entries) p).isSome ↔
        ∃ q ∈ okPaths entries, strTake (fileName q) 7 = p) ∧
    (∀ (entries : List (Except String String)) (p q : String),
      alookup (get_best_snapshot_per_product entries) p = some q →
        q ∈ okPaths entries ∧ strTake (fileName q) 7 = p ∧
        ∀ r ∈ okPaths entries, strTake (fileName r) 7 = p →
          ¬ fileName r < fileName q) := by
  have main : ∀ entries : List (Except String String),
      SnapInv (get_best_snapshot_per_product entries) (okPaths entries) := by
    intro entries
    have h := snapInv_fold entries [] [] snapInv_nil
    simpa [get_best_snapshot_per_product] using h
  exact ⟨fun entries h => foldl_snapshotStep_no_ok entries [] h,
    fun entries => (main entries).1, fun entries => (main entries).2⟩

/-! ## The Level-3 book (`src/book.rs`)

`assert!` / `expect` failures abort the process; each handler therefore
returns `Option` and yields `none` exactly when the Rust code would panic.
The `seq`/`time` fields of the events are never read by the handlers and are
omitted.  The `Rc<RefCell<Order>>` records shared between `Book.orders` and
the per-level queues are held in the arena `Book.arena`; both containers
store arena indices, so a mutation through one is seen through the other.
-/

inductive Side where
  | Bid : Side
  | Ask : Side
deriving DecidableEq, Repr

inductive OrderPrice where
  | Market : OrderPrice
  | Limit : Price → OrderPrice
deriving DecidableEq, Repr

inductive DoneReason where
  | Filled : DoneReason
  | Canceled : DoneReason
deriving DecidableEq, Repr

structure Order where
  id : String
  side : Side
  px : OrderPrice
  orig_size : Price
  open_size : Price
deriving DecidableEq, Repr

/-- `Order::on_open`: `assert!(remaining_size >= zero); open_size = remaining_size`. -/
def Order.on_open (o : Order) (remaining_size : Price) : Option Order :=
  if Price.zero ≤ remaining_size then some { o with open_size := remaining_size } else none

/-- `Order::on_match_maker`: `open_size -= size; assert!(open_size >= zero)`. -/
def Order.on_match_maker (o : Order) (size : Price) : Option Order :=
  let o' := { o with open_size := o.open_size - size }
  if Price.zero ≤ o'.open_size then some o' else none

/-- `Order::on_change`: `open_size += delta; assert!(open_size >= zero)`. -/
def Order.on_change (o : Order) (delta : Price) : Option Order :=
  let o' := { o with open_size := o.open_size + delta }
  if Price.zero ≤ o'.open_size then some o' else none

/-- `Order::on_done`: asserts `open_size == zero` when the reason is `Filled`,
then returns the residual `open_size` (the order record is not modified). -/
def Order.on_done (o : Order) (reason : DoneReason) : Option Price :=
  if reason = DoneReason.Filled ∧ o.open_size ≠ Price.zero then none else some o.open_size

structure PriceLevel where
  orders : List Nat
  total_size : Price
  open_size : Price
deriving DecidableEq, Repr

def PriceLevel.new : PriceLevel := ⟨[], Price.zero, Price.zero⟩

/-- `PriceLevel::on_add`: `total_size += ord.orig_size; orders.push_back(ord)`. -/
def PriceLevel.on_add (l : PriceLevel) (idx : Nat) (ord : Order) : PriceLevel :=
  { l with total_size := l.total_size + ord.orig_size, orders := l.orders ++ [idx] }

def PriceLevel.on_open (l : PriceLevel) (size : Price) : Option PriceLevel :=
  if Price.zero ≤ size then some { l with open_size := l.open_size + size } else none

def PriceLevel.on_match_maker (l : PriceLevel) (size : Price) : Option PriceLevel :=
  let l' := { l with open_size := l.open_size - size }
  if Price.zero ≤ l'.open_size then some l' else none

def PriceLevel.on_change (l : PriceLevel) (delta : Price) : Option PriceLevel :=
  let l' := { l with open_size := l.open_size + delta }
  if Price.zero ≤ l'.open_size then some l' else none

/-- `PriceLevel::on_done`: `assert!(size >= zero); open_size -= size;
assert!(open_size >= zero)`. -/
def PriceLevel.on_done (l : PriceLevel) (size : Price) : Option PriceLevel :=
  if Price.zero ≤ size then
    let l' := { l with open_size := l.open_size - size }
    if Price.zero ≤ l'.open_size then some l' else none
  else none

structure NewOrderEvent where
  order_id : String
  side : Side
  px : OrderPrice
  orig_size : Price
  open_size : Price
deriving DecidableEq, Repr

structure OpenEvent where
  order_id : String
  remaining_size : Price
deriving DecidableEq, Repr

structure MatchEvent where
  maker_order_id : String
  taker_order_id : String
  side : Side
  price : Price
  size : Price
deriving DecidableEq, Repr

structure ChangeEvent where
  order_id : String
  price : OrderPrice
  old_size_or_funds : Price
  new_size_or_funds : Price
deriving DecidableEq, Repr

structure DoneEvent where
  order_id : String
  reason : DoneReason
deriving DecidableEq, Repr

/-- `impl From<&NewOrderEvent> for Order`. -/
def Order.fromEvent (ev : NewOrderEvent) : Order :=
  ⟨ev.order_id, ev.side, ev.px, ev.orig_size, ev.open_size⟩

structure Book where
  arena : List Order
  bid : List (OrderPrice × PriceLevel)
  ask : List (OrderPrice × PriceLevel)
  orders : List (String × Nat)
deriving DecidableEq, Repr

def Book.new : Book := ⟨[], [], [], []⟩

def Book.sideMap (b : Book) : Side → List (OrderPrice × PriceLevel)
  | Side.Bid => b.bid
  | Side.Ask => b.ask

/-- `Book::price_level_mut`: the level at `(side, px)`, if any. -/
def Book.price_level_mut (b : Book) (side : Side) (px : OrderPrice) : Option PriceLevel :=
  alookup (b.sideMap side) px

/-- `Book::price_level`: the public accessor, keyed by `Limit(px)` (market
buckets are not exposed). -/
def Book.price_level (b : Book) (side : Side) (px : Price) : Option PriceLevel :=
  b.price_level_mut side (OrderPrice.Limit px)

def Book.setLevel (b : Book) (side : Side) (px : OrderPrice) (l : PriceLevel) : Book :=
  match side with
  | Side.Bid => { b with bid := aupdate b.bid px l }
  | Side.Ask => { b with ask := aupdate b.ask px l }

/-- `Book::on_add`: insert the order into `orders` (the arena index is the
`Rc`), then `entry(px).or_insert(PriceLevel::new()).on_add(ord)`. -/
def Book.on_add (b : Book) (ev : NewOrderEvent) : Book :=
  let ord := Order.fromEvent ev
  let idx := b.arena.length
  let b' := { b with arena := b.arena ++ [ord],
                     orders := aupdate b.orders ev.order_id idx }
  let lvl := (b'.price_level_mut ev.side ev.px).getD PriceLevel.new
  b'.setLevel ev.side ev.px (lvl.on_add idx ord)

def Book.on_open (b : Book) (ev : OpenEvent) : Option Book := do
  let idx ← alookup b.orders ev.order_id
  let ord ← b.arena[idx]?
  let ord' ← ord.on_open ev.remaining_size
  let lvl ← b.price_level_mut ord.side ord.px
  let lvl' ← lvl.on_open ev.remaining_size
  pure (({ b with arena := b.arena.set idx ord' }).setLevel ord.side ord.px lvl')

def Book.on_match (b : Book) (ev : MatchEvent) : Option Book := do
  let idx ← alookup b.orders ev.maker_order_id
  let maker ← b.arena[idx]?
  let maker' ← maker.on_match_maker ev.size
  let lvl ← b.price_level_mut maker.side maker.px
  let lvl' ← lvl.on_match_maker ev.size
  pure (({ b with arena := b.arena.set idx maker' }).setLevel maker.side maker.px lvl')

/-- `Book::on_change`: `delta = new - old; assert!(delta <= zero)` before any
lookup, then apply the delta to the order and to its level. -/
def Book.on_change (b : Book) (ev : ChangeEvent) : Option Book :=
  let delta := ev.new_size_or_funds - ev.old_size_or_funds
  if delta ≤ Price.zero then do
    let idx ← alookup b.orders ev.order_id
    let ord ← b.arena[idx]?
    let ord' ← ord.on_change delta
    let lvl ← b.price_level_mut ord.side ord.px
    let lvl' ← lvl.on_change delta
    pure (({ b with arena := b.arena.set idx ord' }).setLevel ord.side ord.px lvl')
  else none

def Book.on_done (b : Book) (ev : DoneEvent) : Option Book := do
  let idx ← alookup b.orders ev.order_id
  let ord ← b.arena[idx]?
  let size ← ord.on_done ev.reason
  let lvl ← b.price_level_mut ord.side ord.px
  let lvl' ← lvl.on_done size
  pure (b.setLevel ord.side ord.px lvl')

/-- The tagged event variant of the listener surface. -/
inductive FeedEvent where
  | add : NewOrderEvent → FeedEvent
  | open' : OpenEvent → FeedEvent
  | match' : MatchEvent → FeedEvent
  | change : ChangeEvent → FeedEvent
  | done : DoneEvent → FeedEvent
deriving DecidableEq, Repr

def Book.applyEvent (b : Book) : FeedEvent → Option Book
  | FeedEvent.add ev => some (b.on_add ev)
  | FeedEvent.open' ev => b.on_open ev
  | FeedEvent.match' ev => b.on_match ev
  | FeedEvent.change ev => b.on_change ev
  | FeedEvent.done ev => b.on_done ev

def Book.applyEvents (b : Book) : List FeedEvent → Option Book
  | [] => some b
  | e :: es => (b.applyEvent e).bind (fun b' => b'.applyEvents es)

/-! ### The repository's `book.rs` tests, replayed against the embedding
(prices scaled by 10⁸, as `Price::from` does; the test helper passes
`orig_size` as the event's `open_size`). -/

example : (Book.applyEvents Book.new
    [FeedEvent.add ⟨"order1", Side.Bid, OrderPrice.Limit ⟨1000000000⟩, ⟨10000000000⟩, ⟨10000000000⟩⟩,
     FeedEvent.add ⟨"order2", Side.Bid, OrderPrice.Limit ⟨1000000000⟩, ⟨9000000000⟩, ⟨9000000000⟩⟩,
     FeedEvent.add ⟨"order3", Side.Ask, OrderPrice.Limit ⟨1001000000⟩, ⟨9000000000⟩, ⟨9000000000⟩⟩]).bind
      (fun b => (b.price_level Side.Bid ⟨1000000000⟩).map PriceLevel.total_size)
    = some ⟨19000000000⟩ := by decide

example : (Book.applyEvents Book.new
    [FeedEvent.add ⟨"order1", Side.Bid, OrderPrice.Limit ⟨1000000000⟩, ⟨10000000000⟩, ⟨10000000000⟩⟩,
     FeedEvent.open' ⟨"order1", ⟨10000000000⟩⟩,
     FeedEvent.add ⟨"order2", Side.Ask, OrderPrice.Market, ⟨4000000000⟩, ⟨4000000000⟩⟩,
     FeedEvent.match' ⟨"order1", "order2", Side.Bid, ⟨999000000⟩, ⟨4000000000⟩⟩]).bind
      (fun b => (b.price_level Side.Bid ⟨1000000000⟩).map PriceLevel.open_size)
    = some ⟨6000000000⟩ := by decide

example : (Book.applyEvents Book.new
    [FeedEvent.add ⟨"order3", Side.Ask, OrderPrice.Limit ⟨999000000⟩, ⟨5000000000⟩, ⟨5000000000⟩⟩,
     FeedEvent.add ⟨"order1", Side.Bid, OrderPrice.Limit ⟨1000000000⟩, ⟨10000000000⟩, ⟨10000000000⟩⟩,
     FeedEvent.add ⟨"order2", Side.Bid, OrderPrice.Limit ⟨1000000000⟩, ⟨9000000000⟩, ⟨9000000000⟩⟩,
     FeedEvent.open' ⟨"order3", ⟨5000000000⟩⟩,
     FeedEvent.open' ⟨"order1", ⟨10000000000⟩⟩,
     FeedEvent.match' ⟨"order3", "order2", Side.Ask, ⟨999000000⟩, ⟨5000000000⟩⟩,
     FeedEvent.done ⟨"order3", DoneReason.Filled⟩,
     FeedEvent.open' ⟨"order2", ⟨4000000000⟩⟩,
     FeedEvent.done ⟨"order2", DoneReason.Canceled⟩]).bind
      (fun b => (b.price_level Side.Bid ⟨1000000000⟩).map PriceLevel.open_size)
    = some ⟨10000000000⟩ := by decide

/-! ### Frame lemmas for the book state -/

@[simp] theorem Book.arena_setLevel (b : Book) (side : Side) (px : OrderPrice) (l : PriceLevel) :
    (b.setLevel side px l).arena = b.arena := by cases side <;> rfl

@[simp] theorem Book.orders_setLevel (b : Book) (side : Side) (px : OrderPrice) (l : PriceLevel) :
    (b.setLevel side px l).orders = b.orders := by cases side <;> rfl

theorem Book.price_level_mut_setLevel_self (b : Book) (side : Side) (px : OrderPrice)
    (l : PriceLevel) : (b.setLevel side px l).price_level_mut side px = some l := by
  cases side <;>
    simp [Book.setLevel, Book.price_level_mut, Book.sideMap, alookup_aupdate_self]

theorem Book.price_level_mut_setLevel_ne (b : Book) {side side' : Side} {px px' : OrderPrice}
    (l : PriceLevel) (h : side' ≠ side ∨ px' ≠ px) :
    (b.setLevel side px l).price_level_mut side' px' = b.price_level_mut side' px' := by
  cases side <;> cases side' <;>
      simp only [Book.setLevel, Book.price_level_mut, Book.sideMap] <;>
    first
      | rfl
      | exact alookup_aupdate_ne _ _ _ _ (h.resolve_left (by simp))

theorem Book.price_level_mut_mk_arena (b : Book) (A : List Order)
    (O : List (String × Nat)) (side : Side) (px : OrderPrice) :
    (Book.mk A b.bid b.ask O).price_level_mut side px = b.price_level_mut side px := by
  cases side <;> rfl

/-- C6: `Book::on_change` computes `delta = new − old` and asserts `delta ≤ 0`
before looking anything up, so a `Change` with positive delta aborts (no new
state is produced); with `delta ≤ 0` on a known order whose level exists, a
normal return adds `delta` to both the order's `open_size` and its level's
`open_size`. -/
theorem on_change_requires_nonpositive_delta :
    (∀ (b : Book) (ev : ChangeEvent),
      ¬ ev.new_size_or_funds - ev.old_size_or_funds ≤ Price.zero →
        b.on_change ev = none) ∧
    (∀ (b b' : Book) (ev : ChangeEvent) (idx : Nat) (ord : Order) (lvl : PriceLevel),
      alookup b.orders ev.order_id = some idx →
      b.arena[idx]? = some ord →
      b.price_level_mut ord.side ord.px = some lvl →
      b.on_change ev = some b' →
        ev.new_size_or_funds - ev.old_size_or_funds ≤ Price.zero ∧
        b'.arena[idx]? = some { ord with open_size :=
          ord.open_size + (ev.new_size_or_funds - ev.old_size_or_funds) } ∧
        b'.price_level_mut ord.side ord.px = some { lvl with open_size :=
          lvl.open_size + (ev.new_size_or_funds - ev.old_size_or_funds) }) := by
  constructor
  · intro b ev h
    simp only [Book.on_change, if_neg h]
  · intro b b' ev idx ord lvl hidx hord hlvl hrun
    by_cases hd : ev.new_size_or_funds - ev.old_size_or_funds ≤ Price.zero
    · refine ⟨hd, ?_⟩
      simp only [Book.on_change, if_pos hd, hidx, hord, Option.bind_eq_bind,
        Option.some_bind] at hrun
      by_cases ho : Price.zero ≤ ord.open_size + (ev.new_size_or_funds - ev.old_size_or_funds)
      · simp only [Order.on_change, if_pos ho, Option.some_bind, hlvl] at hrun
        by_cases hl : Price.zero ≤ lvl.open_size + (ev.new_size_or_funds - ev.old_size_or_funds)
        · simp only [PriceLevel.on_change, if_pos hl, Option.some_bind, Option.pure_def,
            Option.some.injEq] at hrun
          have hlen : idx < b.arena.length :=
            (List.getElem?_eq_some_iff.mp hord).1
          subst hrun
          constructor
          · rw [Book.arena_setLevel]
            show (b.arena.set idx _)[idx]? = _
            rw [List.getElem?_set_self (by simpa using hlen)]
          · exact Book.price_level_mut_setLevel_self _ _ _ _
        · simp only [PriceLevel.on_change, if_neg hl, Option.none_bind] at hrun
          cases hrun
      · simp only [Order.on_change, if_neg ho, Option.none_bind] at hrun
        cases hrun
    · simp only [Book.on_change, if_neg hd] at hrun
      cases hrun

theorem PriceLevel.on_done_eq (l : PriceLevel) (size : Price)
    (h1 : Price.zero ≤ size) (h2 : Price.zero ≤ l.open_size - size) :
    l.on_done size = some { l with open_size := l.open_size - size } := by
  simp [PriceLevel.on_done, h1, h2]

theorem Order.on_done_some {o : Order} {reason : DoneReason} {residual : Price}
    (h : o.on_done reason = some residual) : residual = o.open_size := by
  by_cases hc : reason = DoneReason.Filled ∧ o.open_size ≠ Price.zero
  · simp [Order.on_done, hc] at h
  · simp [Order.on_done, hc] at h
    exact h.symm

/-- C5: `Book::on_done` captures the order's residual `open_size` and, on a
normal return, subtracts exactly that residual from the order's price level
(the order record itself is untouched); with reason `Filled` it aborts exactly
when the residual is non-zero, and on a normal return the order's `open_size`
is zero and the level's `open_size` is unchanged.  The hypotheses say the
order and its level exist and the level's `open_size` is non-negative (as on
every reachable book). -/
theorem on_done_filled_spec (b : Book) (ev : DoneEvent) (idx : Nat) (ord : Order)
    (lvl : PriceLevel)
    (hidx : alookup b.orders ev.order_id = some idx)
    (hord : b.arena[idx]? = some ord)
    (hlvl : b.price_level_mut ord.side ord.px = some lvl)
    (hnn : Price.zero ≤ lvl.open_size) :
    (∀ b', b.on_done ev = some b' →
      b'.arena[idx]? = some ord ∧
      b'.price_level_mut ord.side ord.px
        = some { lvl with open_size := lvl.open_size - ord.open_size }) ∧
    (ev.reason = DoneReason.Filled →
      ((b.on_done ev = none) ↔ ord.open_size ≠ Price.zero) ∧
      (∀ b', b.on_done ev = some b' → ord.open_size = Price.zero ∧
        b'.price_level_mut ord.side ord.px = some lvl)) := by
  have hgen : ∀ b', b.on_done ev = some b' →
      b'.arena[idx]? = some ord ∧
      b'.price_level_mut ord.side ord.px
        = some { lvl with open_size := lvl.open_size - ord.open_size } := by
    intro b' hrun
    simp only [Book.on_done, hidx, hord, hlvl, Option.bind_eq_bind, Option.some_bind] at hrun
    cases hres : Order.on_done ord ev.reason with
    | none => rw [hres] at hrun; cases hrun
    | some residual =>
        have hre : residual = ord.open_size := Order.on_done_some hres
        rw [hres] at hrun
        simp only [Option.some_bind] at hrun
        cases hlv : PriceLevel.on_done lvl residual with
        | none => rw [hlv] at hrun; cases hrun
        | some lvl' =>
            rw [hlv] at hrun
            simp only [Option.some_bind, Option.pure_def, Option.some.injEq] at hrun
            subst hrun
            have hlv' : lvl' = { lvl with open_size := lvl.open_size - residual } := by
              by_cases h1 : Price.zero ≤ residual
              · by_cases h2 : Price.zero ≤ lvl.open_size - residual
                · rw [PriceLevel.on_done_eq lvl residual h1 h2] at hlv
                  exact (Option.some.injEq _ _ ▸ hlv).symm
                · simp [PriceLevel.on_done, h1, h2] at hlv
              · simp [PriceLevel.on_done, h1] at hlv
            constructor
            · rw [Book.arena_setLevel]
              exact hord
            · rw [Book.price_level_mut_setLevel_self, hlv', hre]
  have hzero_run : ord.open_size = Price.zero →
      b.on_done ev = some (b.setLevel ord.side ord.px lvl) := by
    intro hz
    have hres : Order.on_done ord ev.reason = some Price.zero := by
      simp [Order.on_done, hz]
    have hlvz : PriceLevel.on_done lvl Price.zero = some lvl := by
      rw [PriceLevel.on_done_eq lvl Price.zero (by simp) (by simpa using hnn)]
      congr 1
      cases lvl with
      | mk q t o =>
          simp only [PriceLevel.mk.injEq, and_true, true_and]
          exact Price.ext_val (by simp)
    simp only [Book.on_done, hidx, hord, hres, hlvz, Option.bind_eq_bind, Option.some_bind,
      Option.pure_def, hlvl]
  refine ⟨hgen, fun hF => ⟨⟨?_, ?_⟩, ?_⟩⟩
  · intro hnone
    intro hz
    rw [hzero_run hz] at hnone
    cases hnone
  · intro hne
    simp only [Book.on_done, hidx, hord, Option.bind_eq_bind, Option.some_bind]
    rw [show Order.on_done ord ev.reason = none from by simp [Order.on_done, hF, hne]]
    rfl
  · intro b' hrun
    have hz : ord.open_size = Price.zero := by
      by_contra hne
      have : b.on_done ev = none := by
        simp only [Book.on_done, hidx, hord, Option.bind_eq_bind, Option.some_bind]
        rw [show Order.on_done ord ev.reason = none from by simp [Order.on_done, hF, hne]]
        rfl
      rw [this] at hrun
      cases hrun
    refine ⟨hz, ?_⟩
    have h2 := (hgen b' hrun).2
    rw [hz] at h2
    rw [h2]
    congr 1
    cases lvl with
    | mk q t o =>
        simp only [PriceLevel.mk.injEq, and_true, true_and]
        exact Price.ext_val (by simp)

/-- A concrete reachable book for exercising `on_done_filled_spec`: order
`"o1"` was added, opened to 5 and fully matched, so its residual is zero. -/
def ordW : Order := ⟨"o1", Side.Bid, OrderPrice.Limit ⟨10⟩, ⟨5⟩, ⟨0⟩⟩

def lvlW : PriceLevel := ⟨[0], ⟨5⟩, ⟨0⟩⟩

def doneBookW : Book := ⟨[ordW], [(OrderPrice.Limit ⟨10⟩, lvlW)], [], [("o1", 0)]⟩

theorem on_done_filled_spec_witness :
    (alookup doneBookW.orders "o1" = some 0 ∧
     doneBookW.arena[0]? = some ordW ∧
     doneBookW.price_level_mut ordW.side ordW.px = some lvlW ∧
     Price.zero ≤ lvlW.open_size) ∧
    ((∀ b', doneBookW.on_done ⟨"o1", DoneReason.Filled⟩ = some b' →
        b'.arena[0]? = some ordW ∧
        b'.price_level_mut ordW.side ordW.px
          = some { lvlW with open_size := lvlW.open_size - ordW.open_size }) ∧
     ((⟨"o1", DoneReason.Filled⟩ : DoneEvent).reason = DoneReason.Filled →
        ((doneBookW.on_done ⟨"o1", DoneReason.Filled⟩ = none) ↔
          ordW.open_size ≠ Price.zero) ∧
        (∀ b', doneBookW.on_done ⟨"o1", DoneReason.Filled⟩ = some b' →
          ordW.open_size = Price.zero ∧
          b'.price_level_mut ordW.side ordW.px = some lvlW))) :=
  ⟨⟨by decide, by decide, by decide, by decide⟩,
   on_done_filled_spec doneBookW ⟨"o1", DoneReason.Filled⟩ 0 ordW lvlW
     (by decide) (by decide) (by decide) (by decide)⟩

/-! ### Inversion lemmas: what a normal return of each handler implies -/

@[simp] theorem PriceLevel.open_size_on_add (l : PriceLevel) (idx : Nat) (ord : Order) :
    (l.on_add idx ord).open_size = l.open_size := rfl

theorem Book.on_add_eq (b : Book) (ev : NewOrderEvent) :
    b.on_add ev = ({ b with arena := b.arena ++ [Order.fromEvent ev], orders := aupdate b.orders ev.order_id b.arena.length }).setLevel ev.side ev.px (((b.price_level_mut ev.side ev.px).getD PriceLevel.new).on_add b.arena.length (Order.fromEvent ev)) := by
  show (Book.mk _ b.bid b.ask _).setLevel ev.side ev.px
      ((((Book.mk _ b.bid b.ask _ : Book)).price_level_mut ev.side ev.px).getD
        PriceLevel.new |>.on_add b.arena.length (Order.fromEvent ev)) = _
  rw [Book.price_level_mut_mk_arena]

theorem Book.on_open_inv {b b' : Book} {ev : OpenEvent} (h : b.on_open ev = some b') :
    ∃ idx ord lvl, alookup b.orders ev.order_id = some idx ∧
      b.arena[idx]? = some ord ∧
      Price.zero ≤ ev.remaining_size ∧
      b.price_level_mut ord.side ord.px = some lvl ∧
      b' = ({ b with arena := b.arena.set idx { ord with open_size := ev.remaining_size } }).setLevel ord.side ord.px { lvl with open_size := lvl.open_size + ev.remaining_size } := by
  simp only [Book.on_open, Option.bind_eq_bind] at h
  cases hidx : alookup b.orders ev.order_id with
  | none => rw [hidx] at h; cases h
  | some idx =>
      rw [hidx] at h
      simp only [Option.some_bind] at h
      cases hord : b.arena[idx]? with
      | none => rw [hord] at h; cases h
      | some ord =>
          rw [hord] at h
          simp only [Option.some_bind] at h
          by_cases hr : Price.zero ≤ ev.remaining_size
          · simp only [Order.on_open, if_pos hr, Option.some_bind] at h
            cases hlvl : b.price_level_mut ord.side ord.px with
            | none => rw [hlvl] at h; cases h
            | some lvl =>
                rw [hlvl] at h
                simp only [Option.some_bind, PriceLevel.on_open, if_pos hr,
                  Option.pure_def, Option.some.injEq] at h
                exact ⟨idx, ord, lvl, rfl, hord, hr, hlvl, h.symm⟩
          · simp only [Order.on_open, if_neg hr, Option.none_bind] at h
            cases h

theorem Book.on_match_inv {b b' : Book} {ev : MatchEvent} (h : b.on_match ev = some b') :
    ∃ idx maker lvl, alookup b.orders ev.maker_order_id = some idx ∧
      b.arena[idx]? = some maker ∧
      Price.zero ≤ maker.open_size - ev.size ∧
      b.price_level_mut maker.side maker.px = some lvl ∧
      Price.zero ≤ lvl.open_size - ev.size ∧
      b' = ({ b with arena := b.arena.set idx { maker with open_size := maker.open_size - ev.size } }).setLevel maker.side maker.px { lvl with open_size := lvl.open_size - ev.size } := by
  simp only [Book.on_match, Option.bind_eq_bind] at h
  cases hidx : alookup b.orders ev.maker_order_id with
  | none => rw [hidx] at h; cases h
  | some idx =>
      rw [hidx] at h
      simp only [Option.some_bind] at h
      cases hord : b.arena[idx]? with
      | none => rw [hord] at h; cases h
      | some maker =>
          rw [hord] at h
          simp only [Option.some_bind] at h
          by_cases hm : Price.zero ≤ maker.open_size - ev.size
          · simp only [Order.on_match_maker, if_pos hm, Option.some_bind] at h
            cases hlvl : b.price_level_mut maker.side maker.px with
            | none => rw [hlvl] at h; cases h
            | some lvl =>
                rw [hlvl] at h
                simp only [Option.some_bind, PriceLevel.on_match_maker] at h
                by_cases hl : Price.zero ≤ lvl.open_size - ev.size
                · simp only [if_pos hl, Option.some_bind, Option.pure_def,
                    Option.some.injEq] at h
                  exact ⟨idx, maker, lvl, rfl, hord, hm, hlvl, hl, h.symm⟩
                · simp only [if_neg hl, Option.none_bind] at h
                  cases h
          · simp only [Order.on_match_maker, if_neg hm, Option.none_bind] at h
            cases h

theorem Book.on_change_inv {b b' : Book} {ev : ChangeEvent} (h : b.on_change ev = some b') :
    ev.new_size_or_funds - ev.old_size_or_funds ≤ Price.zero ∧
    ∃ idx ord lvl, alookup b.orders ev.order_id = some idx ∧
      b.arena[idx]? = some ord ∧
      Price.zero ≤ ord.open_size + (ev.new_size_or_funds - ev.old_size_or_funds) ∧
      b.price_level_mut ord.side ord.px = some lvl ∧
      Price.zero ≤ lvl.open_size + (ev.new_size_or_funds - ev.old_size_or_funds) ∧
      b' = ({ b with arena := b.arena.set idx { ord with open_size := ord.open_size + (ev.new_size_or_funds - ev.old_size_or_funds) } }).setLevel ord.side ord.px { lvl with open_size := lvl.open_size + (ev.new_size_or_funds - ev.old_size_or_funds) } := by
  by_cases hd : ev.new_size_or_funds - ev.old_size_or_funds ≤ Price.zero
  · refine ⟨hd, ?_⟩
    simp only [Book.on_change, if_pos hd, Option.bind_eq_bind] at h
    cases hidx : alookup b.orders ev.order_id with
    | none => rw [hidx] at h; cases h
    | some idx =>
        rw [hidx] at h
        simp only [Option.some_bind] at h
        cases hord : b.arena[idx]? with
        | none => rw [hord] at h; cases h
        | some ord =>
            rw [hord] at h
            simp only [Option.some_bind] at h
            by_cases ho : Price.zero ≤ ord.open_size +
                (ev.new_size_or_funds - ev.old_size_or_funds)
            · simp only [Order.on_change, if_pos ho, Option.some_bind] at h
              cases hlvl : b.price_level_mut ord.side ord.px with
              | none => rw [hlvl] at h; cases h
              | some lvl =>
                  rw [hlvl] at h
                  simp only [Option.some_bind, PriceLevel.on_change] at h
                  by_cases hl : Price.zero ≤ lvl.open_size +
                      (ev.new_size_or_funds - ev.old_size_or_funds)
                  · simp only [if_pos hl, Option.some_bind, Option.pure_def,
                      Option.some.injEq] at h
                    exact ⟨idx, ord, lvl, rfl, hord, ho, hlvl, hl, h.symm⟩
                  · simp only [if_neg hl, Option.none_bind] at h
                    cases h
            · simp only [Order.on_change, if_neg ho, Option.none_bind] at h
              cases h
  · simp only [Book.on_change, if_neg hd] at h
    cases h

theorem Book.on_done_inv {b b' : Book} {ev : DoneEvent} (h : b.on_done ev = some b') :
    ∃ idx ord lvl, alookup b.orders ev.order_id = some idx ∧
      b.arena[idx]? = some ord ∧
      ¬(ev.reason = DoneReason.Filled ∧ ord.open_size ≠ Price.zero) ∧
      b.price_level_mut ord.side ord.px = some lvl ∧
      Price.zero ≤ ord.open_size ∧
      Price.zero ≤ lvl.open_size - ord.open_size ∧
      b' = b.setLevel ord.side ord.px { lvl with open_size := lvl.open_size - ord.open_size } := by
  simp only [Book.on_done, Option.bind_eq_bind] at h
  cases hidx : alookup b.orders ev.order_id with
  | none => rw [hidx] at h; cases h
  | some idx =>
      rw [hidx] at h
      simp only [Option.some_bind] at h
      cases hord : b.arena[idx]? with
      | none => rw [hord] at h; cases h
      | some ord =>
          rw [hord] at h
          simp only [Option.some_bind] at h
          by_cases hc : ev.reason = DoneReason.Filled ∧ ord.open_size ≠ Price.zero
          · simp only [Order.on_done, if_pos hc, Option.none_bind] at h
            cases h
          · simp only [Order.on_done, if_neg hc, Option.some_bind] at h
            cases hlvl : b.price_level_mut ord.side ord.px with
            | none => rw [hlvl] at h; cases h
            | some lvl =>
                rw [hlvl] at h
                simp only [Option.some_bind, PriceLevel.on_done] at h
                by_cases h1 : Price.zero ≤ ord.open_size
                · simp only [if_pos h1] at h
                  by_cases h2 : Price.zero ≤ lvl.open_size - ord.open_size
                  · simp only [if_pos h2, Option.some_bind, Option.pure_def,
                      Option.some.injEq] at h
                    exact ⟨idx, ord, lvl, rfl, hord, hc, hlvl, h1, h2, h.symm⟩
                  · simp only [if_neg h2, Option.none_bind] at h
                    cases h
                · simp only [if_neg h1, Option.none_bind] at h
                  cases h

/-! ### C4: non-negativity of all open sizes -/

/-- The only size-validity the non-negativity invariant needs from a valid
feed: `NewOrder` events carry a non-negative `open_size` (`on_add` is the one
handler with no assertion of its own). -/
def FeedEvent.addNonneg : FeedEvent → Prop
  | FeedEvent.add ev => Price.zero ≤ ev.open_size
  | _ => True

instance (e : FeedEvent) : Decidable e.addNonneg :=
  match e with
  | FeedEvent.add ev => inferInstanceAs (Decidable (Price.zero ≤ ev.open_size))
  | FeedEvent.open' _ => Decidable.isTrue trivial
  | FeedEvent.match' _ => Decidable.isTrue trivial
  | FeedEvent.change _ => Decidable.isTrue trivial
  | FeedEvent.done _ => Decidable.isTrue trivial

/-- Every order and every price level of the book has `open_size ≥ 0`. -/
def BookNonneg (b : Book) : Prop :=
  (∀ o ∈ b.arena, Price.zero ≤ o.open_size) ∧
  (∀ x ∈ b.bid, Price.zero ≤ x.2.open_size) ∧
  (∀ x ∈ b.ask, Price.zero ≤ x.2.open_size)

instance (b : Book) : Decidable (BookNonneg b) :=
  inferInstanceAs (Decidable ((∀ o ∈ b.arena, Price.zero ≤ o.open_size) ∧
    (∀ x ∈ b.bid, Price.zero ≤ x.2.open_size) ∧
    (∀ x ∈ b.ask, Price.zero ≤ x.2.open_size)))

theorem BookNonneg.level_lookup {b : Book} (hb : BookNonneg b) {side : Side}
    {px : OrderPrice} {lvl : PriceLevel}
    (h : b.price_level_mut side px = some lvl) : Price.zero ≤ lvl.open_size := by
  cases side with
  | Bid => exact hb.2.1 _ (alookup_mem h)
  | Ask => exact hb.2.2 _ (alookup_mem h)

theorem BookNonneg.setLevel {b : Book} {side : Side} {px : OrderPrice} {l : PriceLevel}
    (hb : BookNonneg b) (hl : Price.zero ≤ l.open_size) :
    BookNonneg (b.setLevel side px l) := by
  cases side with
  | Bid =>
      refine ⟨hb.1, ?_, hb.2.2⟩
      intro x hx
      rcases mem_aupdate hx with h | h
      · rw [h]; exact hl
      · exact hb.2.1 x h
  | Ask =>
      refine ⟨hb.1, hb.2.1, ?_⟩
      intro x hx
      rcases mem_aupdate hx with h | h
      · rw [h]; exact hl
      · exact hb.2.2 x h

theorem BookNonneg.set_arena {b : Book} {idx : Nat} {ord' : Order}
    (hb : BookNonneg b) (h : Price.zero ≤ ord'.open_size) :
    BookNonneg { b with arena := b.arena.set idx ord' } := by
  refine ⟨?_, hb.2.1, hb.2.2⟩
  intro o ho
  rcases List.mem_or_eq_of_mem_set ho with h' | h'
  · exact hb.1 o h'
  · rw [h']; exact h

theorem applyEvent_nonneg {b b' : Book} {e : FeedEvent}
    (hb : BookNonneg b) (he : e.addNonneg) (hrun : b.applyEvent e = some b') :
    BookNonneg b' := by
  cases e with
  | add ev =>
      simp only [Book.applyEvent, Option.some.injEq] at hrun
      subst hrun
      rw [Book.on_add_eq]
      have hmid : BookNonneg { b with arena := b.arena ++ [Order.fromEvent ev], orders := aupdate b.orders ev.order_id b.arena.length } := by
        refine ⟨?_, hb.2.1, hb.2.2⟩
        intro o ho
        rcases List.mem_append.mp ho with h' | h'
        · exact hb.1 o h'
        · simp only [List.mem_singleton] at h'
          rw [h']
          exact he
      refine hmid.setLevel ?_
      rw [PriceLevel.open_size_on_add]
      cases hl : b.price_level_mut ev.side ev.px with
      | none => simp [PriceLevel.new]
      | some lvl0 => simpa using hb.level_lookup hl
  | open' ev =>
      simp only [Book.applyEvent] at hrun
      obtain ⟨idx, ord, lvl, hidx, hord, hr, hlvl, rfl⟩ := Book.on_open_inv hrun
      refine (hb.set_arena ?_).setLevel ?_
      · exact hr
      · have h1 : (0 : Int) ≤ lvl.open_size.val + ev.remaining_size.val :=
          add_nonneg (by simpa using hb.level_lookup hlvl) (by simpa using hr)
        simpa using h1
  | match' ev =>
      simp only [Book.applyEvent] at hrun
      obtain ⟨idx, maker, lvl, hidx, hord, hm, hlvl, hl, rfl⟩ := Book.on_match_inv hrun
      exact (hb.set_arena hm).setLevel hl
  | change ev =>
      simp only [Book.applyEvent] at hrun
      obtain ⟨hd, idx, ord, lvl, hidx, hord, ho, hlvl, hl, rfl⟩ := Book.on_change_inv hrun
      exact (hb.set_arena ho).setLevel hl
  | done ev =>
      simp only [Book.applyEvent] at hrun
      obtain ⟨idx, ord, lvl, hidx, hord, hc, hlvl, h1, h2, rfl⟩ := Book.on_done_inv hrun
      exact hb.setLevel h2

theorem applyEvents_nonneg : ∀ (events : List FeedEvent) (b b' : Book),
    BookNonneg b → (∀ e ∈ events, e.addNonneg) →
    b.applyEvents events = some b' → BookNonneg b' := by
  intro events
  induction events with
  | nil =>
      intro b b' hb _ hrun
      simp only [Book.applyEvents, Option.some.injEq] at hrun
      subst hrun
      exact hb
  | cons e es ih =>
      intro b b' hb hval hrun
      simp only [Book.applyEvents] at hrun
      cases happly : b.applyEvent e with
      | none => rw [happly] at hrun; cases hrun
      | some b1 =>
          rw [happly] at hrun
          simp only [Option.some_bind] at hrun
          exact ih b1 b'
            (applyEvent_nonneg hb (hval e (List.mem_cons_self _ _)) happly)
            (fun e' he' => hval e' (List.mem_cons_of_mem _ he')) hrun

/-- C4: for every valid event sequence — one whose `NewOrder` events carry a
non-negative `open_size`, the only field no handler assertion guards — in
which every event handler returns normally, every order's and every price
level's `open_size` is non-negative after every event, including immediately
after an `Add` ("after every event" because the theorem quantifies over all
successful event lists, hence over every prefix of a run). -/
theorem open_sizes_nonneg (events : List FeedEvent) (b' : Book)
    (hval : ∀ e ∈ events, e.addNonneg)
    (hrun : Book.new.applyEvents events = some b') :
    BookNonneg b' :=
  applyEvents_nonneg events Book.new b' (by decide) hval hrun

def evsW : List FeedEvent :=
  [FeedEvent.add ⟨"o1", Side.Bid, OrderPrice.Limit ⟨10⟩, ⟨5⟩, ⟨5⟩⟩,
   FeedEvent.open' ⟨"o1", ⟨5⟩⟩,
   FeedEvent.done ⟨"o1", DoneReason.Canceled⟩]

def bFinalW : Book :=
  ⟨[⟨"o1", Side.Bid, OrderPrice.Limit ⟨10⟩, ⟨5⟩, ⟨5⟩⟩],
   [(OrderPrice.Limit ⟨10⟩, ⟨[0], ⟨5⟩, ⟨0⟩⟩)], [], [("o1", 0)]⟩

theorem open_sizes_nonneg_witness :
    (∀ e ∈ evsW, e.addNonneg) ∧
    Book.new.applyEvents evsW = some bFinalW ∧
    BookNonneg bFinalW :=
  ⟨by decide, by decide, open_sizes_nonneg evsW bFinalW (by decide) (by decide)⟩

/-! ### C2: the queue-sum invariant over valid event sequences

The spec quantifies its Book invariants over "valid event sequences".
`istep` is `Book.applyEvent` restricted to exactly that validity — fresh
order ids and a zero `open_size` on `Add` (an order is booked only by its
`Open`), and the spec's per-order state machine
`NEW → OPEN → (MATCH | CHANGE)* → DONE` — together with ghost lifecycle
flags (`opened`, `done`) per arena slot, used only to state the invariant.
-/

structure GStat where
  opened : Bool
  done : Bool
deriving DecidableEq, Repr

structure IBook where
  book : Book
  ghost : List GStat
deriving DecidableEq, Repr

def istep (c : IBook) : FeedEvent → Option IBook
  | FeedEvent.add ev =>
      if alookup c.book.orders ev.order_id = none ∧ ev.open_size = Price.zero then
        some ⟨c.book.on_add ev, c.ghost ++ [⟨false, false⟩]⟩
      else none
  | FeedEvent.open' ev => do
      let idx ← alookup c.book.orders ev.order_id
      let g ← c.ghost[idx]?
      if g.opened = false ∧ g.done = false then do
        let b' ← c.book.on_open ev
        pure ⟨b', c.ghost.set idx ⟨true, false⟩⟩
      else none
  | FeedEvent.match' ev => do
      let idx ← alookup c.book.orders ev.maker_order_id
      let g ← c.ghost[idx]?
      if g.opened = true ∧ g.done = false then do
        let b' ← c.book.on_match ev
        pure ⟨b', c.ghost⟩
      else none
  | FeedEvent.change ev => do
      let idx ← alookup c.book.orders ev.order_id
      let g ← c.ghost[idx]?
      if g.opened = true ∧ g.done = false then do
        let b' ← c.book.on_change ev
        pure ⟨b', c.ghost⟩
      else none
  | FeedEvent.done ev => do
      let idx ← alookup c.book.orders ev.order_id
      let g ← c.ghost[idx]?
      if g.done = false then do
        let b' ← c.book.on_done ev
        pure ⟨b', c.ghost.set idx ⟨g.opened, true⟩⟩
      else none

def irun (c : IBook) : List FeedEvent → Option IBook
  | [] => some c
  | e :: es => (istep c e).bind (fun c' => irun c' es)

/-- The contribution of arena slot `i` to its level's `open_size`: the
order's `open_size` while the order is not yet `Done`, and `0` afterwards. -/
def contrib (c : IBook) (i : Nat) : Int :=
  match c.ghost[i]?, c.book.arena[i]? with
  | some g, some ord => if g.done then 0 else ord.open_size.val
  | _, _ => 0

def levelSum (c : IBook) (lvl : PriceLevel) : Int :=
  (lvl.orders.map (contrib c)).sum

/-- The inductive invariant of valid runs. -/
structure Inv (c : IBook) : Prop where
  glen : c.ghost.length = c.book.arena.length
  omap : ∀ oid idx, alookup c.book.orders oid = some idx →
    ∃ ord lvl, c.book.arena[idx]? = some ord ∧
      c.book.price_level_mut ord.side ord.px = some lvl ∧ idx ∈ lvl.orders
  lvls : ∀ side px lvl, c.book.price_level_mut side px = some lvl →
    lvl.orders.Nodup ∧
    ∀ i ∈ lvl.orders, ∃ ord, c.book.arena[i]? = some ord ∧
      ord.side = side ∧ ord.px = px
  unopened : ∀ (idx : Nat) (g : GStat) (ord : Order),
    c.ghost[idx]? = some g → g.opened = false → g.done = false →
    c.book.arena[idx]? = some ord → ord.open_size = Price.zero
  sums : ∀ side px lvl, c.book.price_level_mut side px = some lvl →
    lvl.open_size.val = levelSum c lvl

theorem inv_init : Inv ⟨Book.new, []⟩ := by
  refine ⟨rfl, ?_, ?_, ?_, ?_⟩
  · intro oid idx h; cases h
  · intro side px lvl h; cases side <;> cases h
  · intro idx g ord hg _ _ _; cases idx <;> cases hg
  · intro side px lvl h; cases side <;> cases h

theorem istep_add_elim {c c' : IBook} {ev : NewOrderEvent}
    (h : istep c (FeedEvent.add ev) = some c') :
    alookup c.book.orders ev.order_id = none ∧ ev.open_size = Price.zero ∧
    c' = ⟨c.book.on_add ev, c.ghost ++ [⟨false, false⟩]⟩ := by
  by_cases hc : alookup c.book.orders ev.order_id = none ∧ ev.open_size = Price.zero
  · simp only [istep, if_pos hc, Option.some.injEq] at h
    exact ⟨hc.1, hc.2, h.symm⟩
  · simp only [istep, if_neg hc] at h
    cases h

theorem istep_open_elim {c c' : IBook} {ev : OpenEvent}
    (h : istep c (FeedEvent.open' ev) = some c') :
    ∃ idx g b', alookup c.book.orders ev.order_id = some idx ∧
      c.ghost[idx]? = some g ∧ g.opened = false ∧ g.done = false ∧
      c.book.on_open ev = some b' ∧ c' = ⟨b', c.ghost.set idx ⟨true, false⟩⟩ := by
  simp only [istep, Option.bind_eq_bind] at h
  cases hidx : alookup c.book.orders ev.order_id with
  | none => rw [hidx] at h; cases h
  | some idx =>
      rw [hidx] at h
      simp only [Option.some_bind] at h
      cases hg : c.ghost[idx]? with
      | none => rw [hg] at h; cases h
      | some g =>
          rw [hg] at h
          simp only [Option.some_bind] at h
          by_cases hcond : g.opened = false ∧ g.done = false
          · rw [if_pos hcond] at h
            cases hb : c.book.on_open ev with
            | none => rw [hb] at h; cases h
            | some b' =>
                rw [hb] at h
                simp only [Option.some_bind, Option.pure_def, Option.some.injEq] at h
                exact ⟨idx, g, b', rfl, hg, hcond.1, hcond.2, rfl, h.symm⟩
          · rw [if_neg hcond] at h
            cases h

theorem istep_match_elim {c c' : IBook} {ev : MatchEvent}
    (h : istep c (FeedEvent.match' ev) = some c') :
    ∃ idx g b', alookup c.book.orders ev.maker_order_id = some idx ∧
      c.ghost[idx]? = some g ∧ g.opened = true ∧ g.done = false ∧
      c.book.on_match ev = some b' ∧ c' = ⟨b', c.ghost⟩ := by
  simp only [istep, Option.bind_eq_bind] at h
  cases hidx : alookup c.book.orders ev.maker_order_id with
  | none => rw [hidx] at h; cases h
  | some idx =>
      rw [hidx] at h
      simp only [Option.some_bind] at h
      cases hg : c.ghost[idx]? with
      | none => rw [hg] at h; cases h
      | some g =>
          rw [hg] at h
          simp only [Option.some_bind] at h
          by_cases hcond : g.opened = true ∧ g.done = false
          · rw [if_pos hcond] at h
            cases hb : c.book.on_match ev with
            | none => rw [hb] at h; cases h
            | some b' =>
                rw [hb] at h
                simp only [Option.some_bind, Option.pure_def, Option.some.injEq] at h
                exact ⟨idx, g, b', rfl, hg, hcond.1, hcond.2, rfl, h.symm⟩
          · rw [if_neg hcond] at h
            cases h

theorem istep_change_elim {c c' : IBook} {ev : ChangeEvent}
    (h : istep c (FeedEvent.change ev) = some c') :
    ∃ idx g b', alookup c.book.orders ev.order_id = some idx ∧
      c.ghost[idx]? = some g ∧ g.opened = true ∧ g.done = false ∧
      c.book.on_change ev = some b' ∧ c' = ⟨b', c.ghost⟩ := by
  simp only [istep, Option.bind_eq_bind] at h
  cases hidx : alookup c.book.orders ev.order_id with
  | none => rw [hidx] at h; cases h
  | some idx =>
      rw [hidx] at h
      simp only [Option.some_bind] at h
      cases hg : c.ghost[idx]? with
      | none => rw [hg] at h; cases h
      | some g =>
          rw [hg] at h
          simp only [Option.some_bind] at h
          by_cases hcond : g.opened = true ∧ g.done = false
          · rw [if_pos hcond] at h
            cases hb : c.book.on_change ev with
            | none => rw [hb] at h; cases h
            | some b' =>
                rw [hb] at h
                simp only [Option.some_bind, Option.pure_def, Option.some.injEq] at h
                exact ⟨idx, g, b', rfl, hg, hcond.1, hcond.2, rfl, h.symm⟩
          · rw [if_neg hcond] at h
            cases h

theorem istep_done_elim {c c' : IBook} {ev : DoneEvent}
    (h : istep c (FeedEvent.done ev) = some c') :
    ∃ idx g b', alookup c.book.orders ev.order_id = some idx ∧
      c.ghost[idx]? = some g ∧ g.done = false ∧
      c.book.on_done ev = some b' ∧ c' = ⟨b', c.ghost.set idx ⟨g.opened, true⟩⟩ := by
  simp only [istep, Option.bind_eq_bind] at h
  cases hidx : alookup c.book.orders ev.order_id with
  | none => rw [hidx] at h; cases h
  | some idx =>
      rw [hidx] at h
      simp only [Option.some_bind] at h
      cases hg : c.ghost[idx]? with
      | none => rw [hg] at h; cases h
      | some g =>
          rw [hg] at h
          simp only [Option.some_bind] at h
          by_cases hcond : g.done = false
          · rw [if_pos hcond] at h
            cases hb : c.book.on_done ev with
            | none => rw [hb] at h; cases h
            | some b' =>
                rw [hb] at h
                simp only [Option.some_bind, Option.pure_def, Option.some.injEq] at h
                exact ⟨idx, g, b', rfl, hg, hcond, rfl, h.symm⟩
          · rw [if_neg hcond] at h
            cases h

theorem sum_map_congr {q : List Nat} {f g : Nat → Int} (h : ∀ i ∈ q, f i = g i) :
    (q.map f).sum = (q.map g).sum := by
  induction q with
  | nil => rfl
  | cons a as ih =>
      simp only [List.map_cons, List.sum_cons]
      rw [h a (List.mem_cons_self _ _), ih (fun i hi => h i (List.mem_cons_of_mem _ hi))]

theorem sum_map_update {q : List Nat} (hnd : q.Nodup) {idx : Nat} (hmem : idx ∈ q)
    {f g : Nat → Int} (hoff : ∀ j ∈ q, j ≠ idx → f j = g j) :
    (q.map g).sum = (q.map f).sum - f idx + g idx := by
  induction q with
  | nil => cases hmem
  | cons a as ih =>
      rcases List.mem_cons.mp hmem with h | h
      · subst h
        have hnotin : idx ∉ as := (List.nodup_cons.mp hnd).1
        have heq : as.map g = as.map f := by
          apply List.map_congr_left
          intro j hj
          exact (hoff j (List.mem_cons_of_mem _ hj)
            (fun hji => hnotin (hji ▸ hj))).symm
        simp only [List.map_cons, List.sum_cons, heq]
        ring
      · have ha : a ≠ idx := fun heq => ((List.nodup_cons.mp hnd).1 (heq ▸ h))
        have hfa : f a = g a := hoff a (List.mem_cons_self _ _) ha
        simp only [List.map_cons, List.sum_cons,
          ih (List.nodup_cons.mp hnd).2 h
            (fun j hj hne => hoff j (List.mem_cons_of_mem _ hj) hne), hfa]
        ring

@[simp] theorem PriceLevel.orders_on_add (l : PriceLevel) (idx : Nat) (ord : Order) :
    (l.on_add idx ord).orders = l.orders ++ [idx] := rfl

theorem getq_some_lt {α : Type} {l : List α} {i : Nat} {x : α} (h : l[i]? = some x) :
    i < l.length := (List.getElem?_eq_some_iff.mp h).1

theorem side_px_ne {s s' : Side} {p p' : OrderPrice} (h : ¬(s' = s ∧ p' = p)) :
    s' ≠ s ∨ p' ≠ p := by tauto

/-- Invariant preservation for `Add`, stated against the observable
components of the post-state. -/
theorem inv_add_abstract (b : Book) (G : List GStat) (ev : NewOrderEvent) (bNew : Book)
    (hinv : Inv ⟨b, G⟩)
    (hzero : ev.open_size = Price.zero)
    (hAlen : bNew.arena.length = b.arena.length + 1)
    (hAat : bNew.arena[b.arena.length]? = some (Order.fromEvent ev))
    (hAne : ∀ j, j < b.arena.length → bNew.arena[j]? = b.arena[j]?)
    (hO : bNew.orders = aupdate b.orders ev.order_id b.arena.length)
    (hPLself : bNew.price_level_mut ev.side ev.px
        = some (((b.price_level_mut ev.side ev.px).getD PriceLevel.new).on_add
            b.arena.length (Order.fromEvent ev)))
    (hPLne : ∀ side px, side ≠ ev.side ∨ px ≠ ev.px →
        bNew.price_level_mut side px = b.price_level_mut side px) :
    Inv ⟨bNew, G ++ [⟨false, false⟩]⟩ := by
  have hmem_lt : ∀ (side : Side) (px : OrderPrice) (lvl : PriceLevel),
      b.price_level_mut side px = some lvl → ∀ i ∈ lvl.orders, i < b.arena.length := by
    intro side px lvl hlvl i hi
    obtain ⟨ordI, hordI, _, _⟩ := (hinv.lvls side px lvl hlvl).2 i hi
    exact getq_some_lt hordI
  have hG'at : (G ++ [(⟨false, false⟩ : GStat)])[b.arena.length]? = some ⟨false, false⟩ := by
    rw [← hinv.glen]
    exact List.getElem?_concat_length _ _
  have hG'ne : ∀ j, j < b.arena.length →
      (G ++ [(⟨false, false⟩ : GStat)])[j]? = G[j]? := by
    intro j hj
    exact List.getElem?_append_left (by rw [hinv.glen]; exact hj)
  have hc_old : ∀ i, i < b.arena.length →
      contrib ⟨bNew, G ++ [⟨false, false⟩]⟩ i = contrib ⟨b, G⟩ i := by
    intro i hi
    simp only [contrib]
    rw [hAne i hi, hG'ne i hi]
  have hc_new : contrib ⟨bNew, G ++ [⟨false, false⟩]⟩ b.arena.length = 0 := by
    simp only [contrib]
    rw [hAat, hG'at]
    simp [Order.fromEvent, hzero]
  refine ⟨?_, ?_, ?_, ?_, ?_⟩
  · show (G ++ [(⟨false, false⟩ : GStat)]).length = bNew.arena.length
    rw [hAlen]
    simp [hinv.glen]
  · intro oid idx hlk
    rw [hO] at hlk
    by_cases hid : oid = ev.order_id
    · subst hid
      rw [alookup_aupdate_self] at hlk
      injection hlk with hlk
      subst hlk
      refine ⟨Order.fromEvent ev,
        ((b.price_level_mut ev.side ev.px).getD PriceLevel.new).on_add
          b.arena.length (Order.fromEvent ev), hAat, ?_, ?_⟩
      · exact hPLself
      · simp
    · rw [alookup_aupdate_ne _ _ _ _ hid] at hlk
      obtain ⟨ord₂, lvl₂, hord₂, hlvl₂, hmem₂⟩ := hinv.omap oid idx hlk
      have hidxlt : idx < b.arena.length := getq_some_lt hord₂
      by_cases hsp : ord₂.side = ev.side ∧ ord₂.px = ev.px
      · refine ⟨ord₂, _, by rw [hAne idx hidxlt]; exact hord₂, by
          rw [hsp.1, hsp.2]; exact hPLself, ?_⟩
        rw [hsp.1, hsp.2] at hlvl₂
        rw [PriceLevel.orders_on_add, hlvl₂, Option.getD_some]
        exact List.mem_append_left _ hmem₂
      · exact ⟨ord₂, lvl₂, by rw [hAne idx hidxlt]; exact hord₂, by
          rw [hPLne _ _ (side_px_ne hsp)]; exact hlvl₂, hmem₂⟩
  · intro side px lvl₃ hlvl₃
    by_cases hsp : side = ev.side ∧ px = ev.px
    · rw [hsp.1, hsp.2, hPLself] at hlvl₃
      injection hlvl₃ with hlvl₃
      subst hlvl₃
      constructor
      · rw [PriceLevel.orders_on_add]
        cases hl0 : b.price_level_mut ev.side ev.px with
        | none => simp [PriceLevel.new]
        | some lvlE =>
            rw [Option.getD_some]
            refine ((hinv.lvls ev.side ev.px lvlE hl0).1).append (List.nodup_singleton _)
              (fun x hx hx' => ?_)
            simp only [List.mem_singleton] at hx'
            exact absurd hx' (Nat.ne_of_lt (hmem_lt ev.side ev.px lvlE hl0 x hx))
      · intro i hi
        rw [PriceLevel.orders_on_add] at hi
        rcases List.mem_append.mp hi with hi | hi
        · cases hl0 : b.price_level_mut ev.side ev.px with
          | none => rw [hl0] at hi; simp [PriceLevel.new] at hi
          | some lvlE =>
              rw [hl0, Option.getD_some] at hi
              obtain ⟨ordI, hordI, hsI, hpI⟩ := (hinv.lvls ev.side ev.px lvlE hl0).2 i hi
              exact ⟨ordI, by
                rw [hAne i (getq_some_lt hordI)]; exact hordI, hsp.1 ▸ hsI, hsp.2 ▸ hpI⟩
        · simp only [List.mem_singleton] at hi
          subst hi
          exact ⟨Order.fromEvent ev, hAat, by rw [hsp.1]; rfl, by rw [hsp.2]; rfl⟩
    · rw [hPLne _ _ (side_px_ne hsp)] at hlvl₃
      obtain ⟨hnd, hmems⟩ := hinv.lvls side px lvl₃ hlvl₃
      refine ⟨hnd, ?_⟩
      intro i hi
      obtain ⟨ordI, hordI, hsI, hpI⟩ := hmems i hi
      exact ⟨ordI, by rw [hAne i (getq_some_lt hordI)]; exact hordI, hsI, hpI⟩
  · intro idx g ord hg hop hdn hord
    by_cases hlt : idx < b.arena.length
    · rw [hG'ne idx hlt] at hg
      rw [hAne idx hlt] at hord
      exact hinv.unopened idx g ord hg hop hdn hord
    · have hidxle : idx < G.length + 1 := by simpa using getq_some_lt hg
      have hgl : G.length = b.arena.length := hinv.glen
      have hidxeq : idx = b.arena.length := by omega
      subst hidxeq
      rw [hAat] at hord
      injection hord with hord
      subst hord
      exact hzero
  · intro side px lvl₃ hlvl₃
    by_cases hsp : side = ev.side ∧ px = ev.px
    · rw [hsp.1, hsp.2, hPLself] at hlvl₃
      injection hlvl₃ with hlvl₃
      subst hlvl₃
      simp only [PriceLevel.open_size_on_add, levelSum, PriceLevel.orders_on_add,
        List.map_append, List.sum_append, List.map_cons, List.map_nil, List.sum_cons,
        List.sum_nil]
      rw [hc_new]
      cases hl0 : b.price_level_mut ev.side ev.px with
      | none => simp [PriceLevel.new]
      | some lvlE =>
          rw [Option.getD_some]
          have hold := hinv.sums ev.side ev.px lvlE hl0
          rw [levelSum] at hold
          have hsame : (lvlE.orders.map (contrib ⟨bNew, G ++ [⟨false, false⟩]⟩)).sum
              = (lvlE.orders.map (contrib ⟨b, G⟩)).sum :=
            sum_map_congr (fun i hi => hc_old i (hmem_lt ev.side ev.px lvlE hl0 i hi))
          rw [hsame]
          omega
    · rw [hPLne _ _ (side_px_ne hsp)] at hlvl₃
      have hold := hinv.sums side px lvl₃ hlvl₃
      rw [hold, levelSum, levelSum]
      exact (sum_map_congr (fun i hi =>
        hc_old i (hmem_lt side px lvl₃ hlvl₃ i hi))).symm

/-- Invariant preservation for the four in-place events (`Open`, `Match`,
`Change`, `Done`): one arena slot `idx` is rewritten from `ord` to `ord'`
(same side and price), its level from `lvl` to `lvl'` (same queue), and the
ghost entry from `g` to `g'`; `hdelta` says the level's `open_size` moved by
exactly the slot's contribution change. -/
theorem inv_touch_abstract (b : Book) (G : List GStat) (bNew : Book) (G' : List GStat)
    (idx : Nat) (g g' : GStat) (ord ord' : Order) (lvl lvl' : PriceLevel)
    (hinv : Inv ⟨b, G⟩)
    (hord : b.arena[idx]? = some ord)
    (hg : G[idx]? = some g)
    (hlvl : b.price_level_mut ord.side ord.px = some lvl)
    (hmem : idx ∈ lvl.orders)
    (hside : ord'.side = ord.side)
    (hpx : ord'.px = ord.px)
    (hq : lvl'.orders = lvl.orders)
    (hunop : g'.opened = false → g'.done = false → ord'.open_size = Price.zero)
    (hdelta : lvl'.open_size.val - lvl.open_size.val
      = (if g'.done then 0 else ord'.open_size.val)
        - (if g.done then 0 else ord.open_size.val))
    (hAlen : bNew.arena.length = b.arena.length)
    (hAat : bNew.arena[idx]? = some ord')
    (hAne : ∀ j, j ≠ idx → bNew.arena[j]? = b.arena[j]?)
    (hO : bNew.orders = b.orders)
    (hPLself : bNew.price_level_mut ord.side ord.px = some lvl')
    (hPLne : ∀ side px, side ≠ ord.side ∨ px ≠ ord.px →
        bNew.price_level_mut side px = b.price_level_mut side px)
    (hGlen : G'.length = G.length)
    (hGat : G'[idx]? = some g')
    (hGne : ∀ j, j ≠ idx → G'[j]? = G[j]?) :
    Inv ⟨bNew, G'⟩ := by
  have hglen : G.length = b.arena.length := hinv.glen
  have hc_ne : ∀ j, j ≠ idx → contrib ⟨bNew, G'⟩ j = contrib ⟨b, G⟩ j := by
    intro j hj
    simp only [contrib]
    rw [hAne j hj, hGne j hj]
  have hc_idx_old : contrib ⟨b, G⟩ idx = (if g.done then 0 else ord.open_size.val) := by
    simp only [contrib]
    rw [hg, hord]
  have hc_idx_new : contrib ⟨bNew, G'⟩ idx
      = (if g'.done then 0 else ord'.open_size.val) := by
    simp only [contrib]
    rw [hGat, hAat]
  have hother : ∀ side px lvl₃, b.price_level_mut side px = some lvl₃ →
      ¬(side = ord.side ∧ px = ord.px) → ∀ i ∈ lvl₃.orders, i ≠ idx := by
    intro side px lvl₃ hlvl₃ hsp i hi hieq
    subst hieq
    obtain ⟨ordI, hordI, hsI, hpI⟩ := (hinv.lvls side px lvl₃ hlvl₃).2 i hi
    rw [hord] at hordI
    injection hordI with hordI
    subst hordI
    exact hsp ⟨hsI.symm, hpI.symm⟩
  refine ⟨?_, ?_, ?_, ?_, ?_⟩
  · show G'.length = bNew.arena.length
    rw [hGlen, hAlen]
    exact hglen
  · intro oid idx₂ hlk
    rw [hO] at hlk
    obtain ⟨ord₂, lvl₂, hord₂, hlvl₂, hmem₂⟩ := hinv.omap oid idx₂ hlk
    by_cases hi2 : idx₂ = idx
    · subst hi2
      rw [hord] at hord₂
      injection hord₂ with hord₂
      subst hord₂
      rw [hlvl] at hlvl₂
      injection hlvl₂ with hlvl₂
      subst hlvl₂
      refine ⟨ord', lvl', hAat, ?_, ?_⟩
      · rw [hside, hpx]
        exact hPLself
      · rw [hq]
        exact hmem₂
    · by_cases hsp : ord₂.side = ord.side ∧ ord₂.px = ord.px
      · rw [hsp.1, hsp.2, hlvl] at hlvl₂
        injection hlvl₂ with hlvl₂
        subst hlvl₂
        refine ⟨ord₂, lvl', by rw [hAne idx₂ hi2]; exact hord₂, ?_, ?_⟩
        · rw [hsp.1, hsp.2]
          exact hPLself
        · rw [hq]
          exact hmem₂
      · exact ⟨ord₂, lvl₂, by rw [hAne idx₂ hi2]; exact hord₂, by
          rw [hPLne _ _ (side_px_ne hsp)]; exact hlvl₂, hmem₂⟩
  · intro side px lvl₃ hlvl₃
    by_cases hsp : side = ord.side ∧ px = ord.px
    · rw [hsp.1, hsp.2, hPLself] at hlvl₃
      injection hlvl₃ with hlvl₃
      subst hlvl₃
      obtain ⟨hnd, hmems⟩ := hinv.lvls ord.side ord.px lvl hlvl
      constructor
      · rw [hq]
        exact hnd
      · intro i hi
        rw [hq] at hi
        obtain ⟨ordI, hordI, hsI, hpI⟩ := hmems i hi
        by_cases hii : i = idx
        · subst hii
          refine ⟨ord', hAat, ?_, ?_⟩
          · rw [hside, hsp.1]
          · rw [hpx, hsp.2]
        · refine ⟨ordI, by rw [hAne i hii]; exact hordI, ?_, ?_⟩
          · rw [hsp.1]
            exact hsI
          · rw [hsp.2]
            exact hpI
    · rw [hPLne _ _ (side_px_ne hsp)] at hlvl₃
      obtain ⟨hnd, hmems⟩ := hinv.lvls side px lvl₃ hlvl₃
      refine ⟨hnd, ?_⟩
      intro i hi
      obtain ⟨ordI, hordI, hsI, hpI⟩ := hmems i hi
      have hii : i ≠ idx := hother side px lvl₃ hlvl₃ hsp i hi
      exact ⟨ordI, by rw [hAne i hii]; exact hordI, hsI, hpI⟩
  · intro idx₃ g₃ ord₃ hg₃ hop hdn hord₃
    by_cases hi3 : idx₃ = idx
    · subst hi3
      rw [hGat] at hg₃
      injection hg₃ with hg₃
      subst hg₃
      rw [hAat] at hord₃
      injection hord₃ with hord₃
      subst hord₃
      exact hunop hop hdn
    · rw [hGne idx₃ hi3] at hg₃
      rw [hAne idx₃ hi3] at hord₃
      exact hinv.unopened idx₃ g₃ ord₃ hg₃ hop hdn hord₃
  · intro side px lvl₃ hlvl₃
    by_cases hsp : side = ord.side ∧ px = ord.px
    · rw [hsp.1, hsp.2, hPLself] at hlvl₃
      injection hlvl₃ with hlvl₃
      subst hlvl₃
      obtain ⟨hnd, _⟩ := hinv.lvls ord.side ord.px lvl hlvl
      have hold := hinv.sums ord.side ord.px lvl hlvl
      rw [levelSum] at hold
      have hupd := sum_map_update hnd hmem (f := contrib ⟨b, G⟩) (g := contrib ⟨bNew, G'⟩)
        (fun j _ hj => (hc_ne j hj).symm)
      rw [levelSum, hq, hupd, hc_idx_old, hc_idx_new]
      omega
    · rw [hPLne _ _ (side_px_ne hsp)] at hlvl₃
      have hold := hinv.sums side px lvl₃ hlvl₃
      rw [hold, levelSum, levelSum]
      exact (sum_map_congr (fun i hi =>
        hc_ne i (hother side px lvl₃ hlvl₃ hsp i hi))).symm

theorem istep_inv {c c' : IBook} {e : FeedEvent} (hinv : Inv c)
    (h : istep c e = some c') : Inv c' := by
  have hinv' : Inv ⟨c.book, c.ghost⟩ := hinv
  cases e with
  | add ev =>
      obtain ⟨hfresh, hzero, rfl⟩ := istep_add_elim h
      refine inv_add_abstract c.book c.ghost ev (c.book.on_add ev) hinv' hzero ?_ ?_ ?_ ?_ ?_ ?_
      · rw [Book.on_add_eq, Book.arena_setLevel]
        simp
      · rw [Book.on_add_eq, Book.arena_setLevel]
        exact List.getElem?_concat_length _ _
      · intro j hj
        rw [Book.on_add_eq, Book.arena_setLevel]
        exact List.getElem?_append_left hj
      · rw [Book.on_add_eq, Book.orders_setLevel]
      · rw [Book.on_add_eq]
        exact Book.price_level_mut_setLevel_self _ _ _ _
      · intro side px hne
        rw [Book.on_add_eq, Book.price_level_mut_setLevel_ne _ _ hne,
          Book.price_level_mut_mk_arena]
  | open' ev =>
      obtain ⟨idx, g, b', hidx, hg, hop, hdn, hb, rfl⟩ := istep_open_elim h
      obtain ⟨idx₂, ord, lvl, hidx₂, hord, hr, hlvl, rfl⟩ := Book.on_open_inv hb
      rw [hidx] at hidx₂
      injection hidx₂ with hidx₂
      subst hidx₂
      obtain ⟨ord₄, lvl₄, hord₄, hlvl₄, hmem₄⟩ := hinv.omap ev.order_id idx hidx
      rw [hord] at hord₄
      injection hord₄ with hord₄
      subst hord₄
      rw [hlvl] at hlvl₄
      injection hlvl₄ with hlvl₄
      subst hlvl₄
      have hz : ord.open_size = Price.zero := hinv.unopened idx g ord hg hop hdn hord
      have hidxlt : idx < c.book.arena.length := getq_some_lt hord
      have hglt : idx < c.ghost.length := getq_some_lt hg
      refine inv_touch_abstract c.book c.ghost _ _ idx g ⟨true, false⟩ ord
        { ord with open_size := ev.remaining_size }
        lvl { lvl with open_size := lvl.open_size + ev.remaining_size }
        hinv' hord hg hlvl hmem₄ rfl rfl rfl ?_ ?_ ?_ ?_ ?_ ?_ ?_ ?_ ?_ ?_ ?_
      · intro hfalse _
        simp at hfalse
      · simp [hdn, hz]
      · rw [Book.arena_setLevel]
        simp
      · rw [Book.arena_setLevel]
        exact List.getElem?_set_self hidxlt
      · intro j hj
        rw [Book.arena_setLevel]
        exact List.getElem?_set_ne (Ne.symm hj)
      · rw [Book.orders_setLevel]
      · exact Book.price_level_mut_setLevel_self _ _ _ _
      · intro side px hne
        rw [Book.price_level_mut_setLevel_ne _ _ hne, Book.price_level_mut_mk_arena]
      · simp
      · exact List.getElem?_set_self hglt
      · intro j hj
        exact List.getElem?_set_ne (Ne.symm hj)
  | match' ev =>
      obtain ⟨idx, g, b', hidx, hg, hop, hdn, hb, rfl⟩ := istep_match_elim h
      obtain ⟨idx₂, maker, lvl, hidx₂, hord, hm, hlvl, hl, rfl⟩ := Book.on_match_inv hb
      rw [hidx] at hidx₂
      injection hidx₂ with hidx₂
      subst hidx₂
      obtain ⟨ord₄, lvl₄, hord₄, hlvl₄, hmem₄⟩ := hinv.omap ev.maker_order_id idx hidx
      rw [hord] at hord₄
      injection hord₄ with hord₄
      subst hord₄
      rw [hlvl] at hlvl₄
      injection hlvl₄ with hlvl₄
      subst hlvl₄
      have hidxlt : idx < c.book.arena.length := getq_some_lt hord
      refine inv_touch_abstract c.book c.ghost _ _ idx g g maker
        { maker with open_size := maker.open_size - ev.size }
        lvl { lvl with open_size := lvl.open_size - ev.size }
        hinv' hord hg hlvl hmem₄ rfl rfl rfl ?_ ?_ ?_ ?_ ?_ ?_ ?_ ?_ ?_ ?_ ?_
      · intro hfalse _
        rw [hop] at hfalse
        cases hfalse
      · simp [hdn]
      · rw [Book.arena_setLevel]
        simp
      · rw [Book.arena_setLevel]
        exact List.getElem?_set_self hidxlt
      · intro j hj
        rw [Book.arena_setLevel]
        exact List.getElem?_set_ne (Ne.symm hj)
      · rw [Book.orders_setLevel]
      · exact Book.price_level_mut_setLevel_self _ _ _ _
      · intro side px hne
        rw [Book.price_level_mut_setLevel_ne _ _ hne, Book.price_level_mut_mk_arena]
      · rfl
      · exact hg
      · intro j hj
        rfl
  | change ev =>
      obtain ⟨idx, g, b', hidx, hg, hop, hdn, hb, rfl⟩ := istep_change_elim h
      obtain ⟨hd, idx₂, ord, lvl, hidx₂, hord, ho, hlvl, hl, rfl⟩ := Book.on_change_inv hb
      rw [hidx] at hidx₂
      injection hidx₂ with hidx₂
      subst hidx₂
      obtain ⟨ord₄, lvl₄, hord₄, hlvl₄, hmem₄⟩ := hinv.omap ev.order_id idx hidx
      rw [hord] at hord₄
      injection hord₄ with hord₄
      subst hord₄
      rw [hlvl] at hlvl₄
      injection hlvl₄ with hlvl₄
      subst hlvl₄
      have hidxlt : idx < c.book.arena.length := getq_some_lt hord
      refine inv_touch_abstract c.book c.ghost _ _ idx g g ord
        { ord with open_size :=
            ord.open_size + (ev.new_size_or_funds - ev.old_size_or_funds) }
        lvl { lvl with open_size :=
            lvl.open_size + (ev.new_size_or_funds - ev.old_size_or_funds) }
        hinv' hord hg hlvl hmem₄ rfl rfl rfl ?_ ?_ ?_ ?_ ?_ ?_ ?_ ?_ ?_ ?_ ?_
      · intro hfalse _
        rw [hop] at hfalse
        cases hfalse
      · simp [hdn]
      · rw [Book.arena_setLevel]
        simp
      · rw [Book.arena_setLevel]
        exact List.getElem?_set_self hidxlt
      · intro j hj
        rw [Book.arena_setLevel]
        exact List.getElem?_set_ne (Ne.symm hj)
      · rw [Book.orders_setLevel]
      · exact Book.price_level_mut_setLevel_self _ _ _ _
      · intro side px hne
        rw [Book.price_level_mut_setLevel_ne _ _ hne, Book.price_level_mut_mk_arena]
      · rfl
      · exact hg
      · intro j hj
        rfl
  | done ev =>
      obtain ⟨idx, g, b', hidx, hg, hdn, hb, rfl⟩ := istep_done_elim h
      obtain ⟨idx₂, ord, lvl, hidx₂, hord, hc, hlvl, h1, h2, rfl⟩ := Book.on_done_inv hb
      rw [hidx] at hidx₂
      injection hidx₂ with hidx₂
      subst hidx₂
      obtain ⟨ord₄, lvl₄, hord₄, hlvl₄, hmem₄⟩ := hinv.omap ev.order_id idx hidx
      rw [hord] at hord₄
      injection hord₄ with hord₄
      subst hord₄
      rw [hlvl] at hlvl₄
      injection hlvl₄ with hlvl₄
      subst hlvl₄
      have hglt : idx < c.ghost.length := getq_some_lt hg
      refine inv_touch_abstract c.book c.ghost _ _ idx g ⟨g.opened, true⟩ ord ord
        lvl { lvl with open_size := lvl.open_size - ord.open_size }
        hinv' hord hg hlvl hmem₄ rfl rfl rfl ?_ ?_ ?_ ?_ ?_ ?_ ?_ ?_ ?_ ?_ ?_
      · intro _ hfalse
        cases hfalse
      · simp [hdn]
      · rw [Book.arena_setLevel]
      · rw [Book.arena_setLevel]
        exact hord
      · intro j hj
        rw [Book.arena_setLevel]
      · rw [Book.orders_setLevel]
      · exact Book.price_level_mut_setLevel_self _ _ _ _
      · intro side px hne
        exact Book.price_level_mut_setLevel_ne _ _ hne
      · simp
      · exact List.getElem?_set_self hglt
      · intro j hj
        exact List.getElem?_set_ne (Ne.symm hj)

theorem irun_inv : ∀ (events : List FeedEvent) (c c' : IBook),
    Inv c → irun c events = some c' → Inv c' := by
  intro events
  induction events with
  | nil =>
      intro c c' hc hrun
      simp only [irun, Option.some.injEq] at hrun
      subst hrun
      exact hc
  | cons e es ih =>
      intro c c' hc hrun
      simp only [irun] at hrun
      cases hstep : istep c e with
      | none => rw [hstep] at hrun; cases hrun
      | some c1 =>
          rw [hstep] at hrun
          simp only [Option.some_bind] at hrun
          exact ih c1 c' (istep_inv hc hstep) hrun

/-- A valid run in which an order is added, opened, and then canceled:
the canceled order stays in its level's queue with residual `open_size` 5. -/
def evsC2 : List FeedEvent :=
  [FeedEvent.add ⟨"o1", Side.Bid, OrderPrice.Limit ⟨10⟩, ⟨5⟩, ⟨0⟩⟩,
   FeedEvent.open' ⟨"o1", ⟨5⟩⟩,
   FeedEvent.done ⟨"o1", DoneReason.Canceled⟩]

def cC2 : IBook :=
  ⟨⟨[⟨"o1", Side.Bid, OrderPrice.Limit ⟨10⟩, ⟨5⟩, ⟨5⟩⟩],
    [(OrderPrice.Limit ⟨10⟩, ⟨[0], ⟨5⟩, ⟨0⟩⟩)], [], [("o1", 0)]⟩,
   [⟨true, true⟩]⟩

def lvlC2 : PriceLevel := ⟨[0], ⟨5⟩, ⟨0⟩⟩

/-- C2 (amended): for every valid event sequence applied to a fresh `Book`
(ids fresh, `Add.open_size = 0`, lifecycle NEW → OPEN → (MATCH|CHANGE)* →
DONE respected), after every event each price level's `open_size` equals
the sum of `open_size` over the orders in its queue that are not yet
`Done`; orders that already received `Done` remain in the queue with their
residual `open_size` but contribute `0`. -/
theorem level_open_size_eq_live_queue_sum (events : List FeedEvent) (c' : IBook)
    (hrun : irun ⟨Book.new, []⟩ events = some c') :
    ∀ (side : Side) (px : OrderPrice) (lvl : PriceLevel),
      c'.book.price_level_mut side px = some lvl →
      lvl.open_size.val = levelSum c' lvl :=
  fun side px lvl h =>
    (irun_inv events ⟨Book.new, []⟩ c' inv_init hrun).sums side px lvl h

theorem level_open_size_eq_live_queue_sum_witness :
    irun ⟨Book.new, []⟩ evsC2 = some cC2 ∧
    cC2.book.price_level_mut Side.Bid (OrderPrice.Limit ⟨10⟩) = some lvlC2 ∧
    lvlC2.open_size.val = levelSum cC2 lvlC2 :=
  ⟨by decide, by decide,
    level_open_size_eq_live_queue_sum evsC2 cC2 (by decide) Side.Bid
      (OrderPrice.Limit ⟨10⟩) lvlC2 (by decide)⟩

/-- C2 counterexample to the literal claim: after the valid run `evsC2`
(add, open, cancel of `"o1"`), the level at `(Bid, Limit 10)` has
`open_size = 0`, but the canceled order is still in the queue with
`open_size = 5`, so the sum of `open_size` over all orders currently in the
queue is `5 ≠ 0`. -/
theorem level_open_sum_fails_with_done_residual :
    irun ⟨Book.new, []⟩ evsC2 = some cC2 ∧
    cC2.book.price_level_mut Side.Bid (OrderPrice.Limit ⟨10⟩) = some lvlC2 ∧
    lvlC2.open_size.val = 0 ∧
    (lvlC2.orders.map
      (fun i => ((cC2.book.arena[i]?).map (fun o => o.open_size.val)).getD 0)).sum
      = 5 := by
  decide

/-- C3 (amended): in a valid run, an order that receives `Done` with no
intervening `Open` after its `Add` still has `open_size = 0` (the invariant
of valid runs), so processing the `Done` subtracts `0` from its level and
leaves both sides of the book unchanged. -/
theorem done_without_open_preserves_levels
    (events : List FeedEvent) (c' : IBook)
    (hrun : irun ⟨Book.new, []⟩ events = some c')
    (ev : DoneEvent) (idx : Nat) (g : GStat)
    (hidx : alookup c'.book.orders ev.order_id = some idx)
    (hg : c'.ghost[idx]? = some g)
    (hnoopen : g.opened = false) (hnotdone : g.done = false)
    (b'' : Book) (hdone : c'.book.on_done ev = some b'') :
    b''.bid = c'.book.bid ∧ b''.ask = c'.book.ask := by
  have hinv := irun_inv events ⟨Book.new, []⟩ c' inv_init hrun
  obtain ⟨idx₂, ord, lvl, hidx₂, hord, hc, hlvl, h1, h2, rfl⟩ := Book.on_done_inv hdone
  rw [hidx] at hidx₂
  injection hidx₂ with hidx₂
  subst hidx₂
  have hz : ord.open_size = Price.zero := hinv.unopened idx g ord hg hnoopen hnotdone hord
  have hsub : lvl.open_size - Price.zero = lvl.open_size :=
    Price.ext_val (by simp [Price.sub_val, Price.zero_val])
  have hlvl' : ({ lvl with open_size := lvl.open_size - ord.open_size } : PriceLevel) = lvl := by
    rw [hz, hsub]
  rw [hlvl']
  cases hside : ord.side with
  | Bid =>
      rw [hside] at hlvl
      refine ⟨?_, rfl⟩
      show aupdate c'.book.bid ord.px lvl = c'.book.bid
      exact aupdate_eq_of_alookup _ _ _ hlvl
  | Ask =>
      rw [hside] at hlvl
      refine ⟨rfl, ?_⟩
      show aupdate c'.book.ask ord.px lvl = c'.book.ask
      exact aupdate_eq_of_alookup _ _ _ hlvl

/-- A valid run after which `"o1"` is added but never opened. -/
def evsC3 : List FeedEvent :=
  [FeedEvent.add ⟨"o1", Side.Bid, OrderPrice.Limit ⟨10⟩, ⟨5⟩, ⟨0⟩⟩,
   FeedEvent.add ⟨"o2", Side.Bid, OrderPrice.Limit ⟨10⟩, ⟨7⟩, ⟨0⟩⟩,
   FeedEvent.open' ⟨"o2", ⟨7⟩⟩]

def cC3 : IBook :=
  ⟨⟨[⟨"o1", Side.Bid, OrderPrice.Limit ⟨10⟩, ⟨5⟩, ⟨0⟩⟩,
     ⟨"o2", Side.Bid, OrderPrice.Limit ⟨10⟩, ⟨7⟩, ⟨7⟩⟩],
    [(OrderPrice.Limit ⟨10⟩, ⟨[0, 1], ⟨12⟩, ⟨7⟩⟩)], [],
    [("o1", 0), ("o2", 1)]⟩,
   [⟨false, false⟩, ⟨true, false⟩]⟩

theorem done_without_open_preserves_levels_witness :
    irun ⟨Book.new, []⟩ evsC3 = some cC3 ∧
    alookup cC3.book.orders "o1" = some 0 ∧
    cC3.ghost[0]? = some ⟨false, false⟩ ∧
    cC3.book.on_done ⟨"o1", DoneReason.Canceled⟩ = some cC3.book ∧
    cC3.book.bid = cC3.book.bid ∧ cC3.book.ask = cC3.book.ask :=
  ⟨by decide, by decide, by decide, by decide,
    done_without_open_preserves_levels evsC3 cC3 (by decide)
      ⟨"o1", DoneReason.Canceled⟩ 0 ⟨false, false⟩ (by decide) (by decide)
      rfl rfl cC3.book (by decide)⟩

/-- The book reached by `[add "o2" (open 0); open "o2" 7; add "o1" (open 5)]`:
the level at `(Bid, Limit 10)` has `open_size = 7`. -/
def bC3pre : Book :=
  ⟨[⟨"o2", Side.Bid, OrderPrice.Limit ⟨10⟩, ⟨7⟩, ⟨7⟩⟩,
    ⟨"o1", Side.Bid, OrderPrice.Limit ⟨10⟩, ⟨5⟩, ⟨5⟩⟩],
   [(OrderPrice.Limit ⟨10⟩, ⟨[0, 1], ⟨12⟩, ⟨7⟩⟩)], [],
   [("o2", 0), ("o1", 1)]⟩

def bC3post : Book :=
  ⟨[⟨"o2", Side.Bid, OrderPrice.Limit ⟨10⟩, ⟨7⟩, ⟨7⟩⟩,
    ⟨"o1", Side.Bid, OrderPrice.Limit ⟨10⟩, ⟨5⟩, ⟨5⟩⟩],
   [(OrderPrice.Limit ⟨10⟩, ⟨[0, 1], ⟨12⟩, ⟨2⟩⟩)], [],
   [("o2", 0), ("o1", 1)]⟩

/-- C3 counterexample to the literal claim: `"o1"` is added with
`open_size = 5` (the `Book` accepts any `NewOrderEvent`) and receives
`Done` with no intervening `Open`, yet processing the `Done` changes its
level's `open_size` from `7` to `2`: the `Done` subtracts the order's
residual `open_size`, which is nonzero here. -/
theorem done_without_open_changes_level :
    Book.applyEvents Book.new
      [FeedEvent.add ⟨"o2", Side.Bid, OrderPrice.Limit ⟨10⟩, ⟨7⟩, ⟨0⟩⟩,
       FeedEvent.open' ⟨"o2", ⟨7⟩⟩,
       FeedEvent.add ⟨"o1", Side.Bid, OrderPrice.Limit ⟨10⟩, ⟨5⟩, ⟨5⟩⟩] = some bC3pre ∧
    bC3pre.on_done ⟨"o1", DoneReason.Canceled⟩ = some bC3post ∧
    bC3pre.price_level_mut Side.Bid (OrderPrice.Limit ⟨10⟩) = some ⟨[0, 1], ⟨12⟩, ⟨7⟩⟩ ∧
    bC3post.price_level_mut Side.Bid (OrderPrice.Limit ⟨10⟩) = some ⟨[0, 1], ⟨12⟩, ⟨2⟩⟩ := by
  decide

end Cryptoview
